import Mathlib

set_option autoImplicit false
set_option linter.unusedSectionVars false

/-!
Shallow embedding of the `meek` weak-collection library (MeekSet, MeekMap,
MeekValueMap) and proofs of its specified properties.

Modelling conventions:
- JavaScript objects are identified by `ObjId := Nat`; reclamation state is a
  list `dead : List ObjId` of already-reclaimed object ids (reclamation is
  monotonic: objects are only ever added to `dead`).
- A `WeakRef` is modelled by a `RefId := Nat` allocated from a per-container
  counter `nextRef`; the association `RefId -> ObjId` (the wrapped target) is
  recorded in a `refs` list.  `WeakRef.prototype.deref` returns the target if
  it is not dead.
- A JavaScript `Map` is an insertion-ordered association list: `set` on an
  existing key updates the value in place (keeping the entry's position),
  otherwise it appends; `delete` removes the entry.
- A JavaScript `WeakMap` is the same association list, except that lookups of
  a dead key report absence (the host drops the entry at reclamation time and
  a dead key can in any case no longer be presented by a caller).
- A `FinalizationRegistry` is a list of cells `(target, heldValue, token,
  active)`.  `register` appends an active cell, `unregister tok` deactivates
  every cell whose unregister token is `tok` (the host removes such cells; a
  deactivated cell never fires, which is observably the same).  A cell may
  fire once its target is dead and it is still active; firing deactivates the
  cell and runs the registry's callback on the held value.
-/

namespace Meek

abbrev ObjId := Nat
abbrev RefId := Nat

/-- A JavaScript value as far as weak holdability is concerned: an object
(identified by id) or a primitive (which cannot be weakly held; constructing
a `WeakRef` around it throws a `TypeError`). -/
inductive JVal where
  | obj (id : ObjId)
  | prim (n : Nat)
deriving DecidableEq

section AssocKit

variable {K : Type} {B : Type} [DecidableEq K]

/-- `Map.prototype.get`: first (equivalently, unique) entry for a key. -/
def mapGet : List (K × B) → K → Option B
  | [], _ => none
  | (k', v) :: t, k => if k' = k then some v else mapGet t k

/-- `Map.prototype.set`: update in place if the key is present (preserving
the entry's position in insertion order), otherwise append. -/
def mapSet : List (K × B) → K → B → List (K × B)
  | [], k, v => [(k, v)]
  | (k', v') :: t, k, v =>
    if k' = k then (k, v) :: t else (k', v') :: mapSet t k v

/-- `Map.prototype.delete`: remove the entry for a key. -/
def mapDelete : List (K × B) → K → List (K × B)
  | [], _ => []
  | (k', v') :: t, k => if k' = k then t else (k', v') :: mapDelete t k

/-- `WeakMap` lookup: a dead key reads as absent (the host has dropped, or
will unobservably drop, the entry once the key is reclaimed). -/
def wmGet (dead : List ObjId) (l : List (ObjId × B)) (k : ObjId) : Option B :=
  if k ∈ dead then none else mapGet l k

/-- `Set.prototype.add`: append if absent, keep position if present. -/
def setAdd (l : List RefId) (r : RefId) : List RefId :=
  if r ∈ l then l else l ++ [r]

end AssocKit

namespace MeekValueMap

/-- One `FinalizationRegistry` cell of a `MeekValueMap` (src/valuemap.ts):
`fr.register(value, key, ref)` — the target is the value object, the held
value is the key, and the unregister token is the `WeakRef`. -/
structure Reg (K : Type) where
  target : ObjId
  held : K
  token : RefId
  active : Bool
deriving DecidableEq

/-- The private state of a `MeekValueMap` (src/valuemap.ts, interface Pri):
`kwv` is the `Map` of keys to weak references to values; `refs`/`nextRef`
record `WeakRef` allocation; `regs` is the finalization registry. -/
structure State (K : Type) where
  kwv : List (K × RefId)
  refs : List (RefId × ObjId)
  regs : List (Reg K)
  nextRef : RefId
deriving DecidableEq

variable {K : Type} [DecidableEq K]

/-- `new MeekValueMap()` with no initial pairs. -/
def empty : State K := ⟨[], [], [], 0⟩

/-- `fr.unregister(tok)`: deactivate every cell with this unregister token. -/
def unregister (regs : List (Reg K)) (tok : RefId) : List (Reg K) :=
  regs.map fun r => if r.token = tok then { r with active := false } else r

/-- `WeakRef.prototype.deref` for a ref allocated by this map. -/
def deref (dead : List ObjId) (s : State K) (r : RefId) : Option ObjId :=
  match mapGet s.refs r with
  | some t => if t ∈ dead then none else some t
  | none => none

/-- `MeekValueMap.prototype.set` (src/valuemap.ts lines 166-176):
allocate `ref = new WeakRef(value)`; if the key already has a ref,
`fr.unregister` it; `fr.register(value, key, ref)`; `kwv.set(key, ref)`. -/
def set (s : State K) (k : K) (v : ObjId) : State K :=
  let ref := s.nextRef
  let regs :=
    match mapGet s.kwv k with
    | some old => unregister s.regs old
    | none => s.regs
  { kwv := mapSet s.kwv k ref
    refs := s.refs ++ [(ref, v)]
    regs := regs ++ [⟨v, k, ref, true⟩]
    nextRef := ref + 1 }

/-- `MeekValueMap.prototype.delete` (src/valuemap.ts lines 84-92): if the key
has a ref, `fr.unregister(ref)` and delete it from `kwv` (returning true),
else return false. -/
def delete (s : State K) (k : K) : Bool × State K :=
  match mapGet s.kwv k with
  | some ref =>
    (true, { s with regs := unregister s.regs ref, kwv := mapDelete s.kwv k })
  | none => (false, s)

/-- `MeekValueMap.prototype.clear` (src/valuemap.ts lines 70-76): for each
entry, `fr.unregister(ref)` and delete the key; the net effect is an empty
`kwv` with every current entry's registration detached. -/
def clear (s : State K) : State K :=
  { s with
    regs := s.kwv.foldl (fun rs p => unregister rs p.2) s.regs
    kwv := [] }

/-- `MeekValueMap.prototype.get` (src/valuemap.ts lines 132-134):
`kwv.get(key)?.deref()`. -/
def get (dead : List ObjId) (s : State K) (k : K) : Option ObjId :=
  (mapGet s.kwv k).bind (deref dead s)

/-- `MeekValueMap.prototype.has` (src/valuemap.ts lines 142-144):
`!!kwv.get(key)?.deref()`. -/
def has (dead : List ObjId) (s : State K) (k : K) : Bool :=
  (get dead s k).isSome

/-- `MeekValueMap.prototype.size` (src/valuemap.ts lines 182-184). -/
def size (s : State K) : Nat := s.kwv.length

/-- The pair iterator (src/valuemap.ts lines 58-65): walk `kwv` in insertion
order, yielding only entries whose ref still derefs. -/
def toList (dead : List ObjId) (s : State K) : List (K × ObjId) :=
  s.kwv.filterMap fun p => (deref dead s p.2).map fun v => (p.1, v)

/-- The registry callback of a `MeekValueMap` (src/valuemap.ts line 40):
`kwv.delete.bind(kwv)` — it deletes the held key from `kwv` unconditionally,
with no comparison against the entry's current token. -/
def callback (s : State K) (k : K) : State K :=
  { s with kwv := mapDelete s.kwv k }

/-- Deliver the reclamation callback for the registry cell with unregister
token `tok` (tokens are fresh `WeakRef`s, hence unique per cell): if that
cell is active and its target is dead, retire the cell and run `callback`
on its held key. -/
def fire (dead : List ObjId) (s : State K) (tok : RefId) : State K :=
  match s.regs.find? (fun r => r.token == tok && r.active && dead.contains r.target) with
  | some r => callback { s with regs := unregister s.regs tok } r.held
  | none => s

/-- Deliver a sequence of reclamation callbacks. -/
def fireMany (dead : List ObjId) (s : State K) (toks : List RefId) : State K :=
  toks.foldl (fire dead) s

/-- `MeekValueMap.prototype.set` honouring the weak-holdability precondition:
`new WeakRef(value)` is the first step (src/valuemap.ts line 168) and throws
a `TypeError` on a primitive, before any state is touched.  The boolean
records whether the call threw. -/
def setChecked (s : State K) (k : K) (v : JVal) : Bool × State K :=
  match v with
  | .prim _ => (true, s)
  | .obj i => (false, set s k i)

/-- `get` as a state transformer, exactly as the read path executes: it calls
only `Map.prototype.get` and `WeakRef.prototype.deref`, neither of which
mutates, so the state passes through unchanged. -/
def getR (dead : List ObjId) (s : State K) (k : K) : Option ObjId × State K :=
  ((mapGet s.kwv k).bind (deref dead s), s)

/-- `has` as a state transformer (same read-only path as `get`). -/
def hasR (dead : List ObjId) (s : State K) (k : K) : Bool × State K :=
  (((mapGet s.kwv k).bind (deref dead s)).isSome, s)

/-- The pair iterator as a state transformer: it walks `kwv` and derefs,
performing no mutation. -/
def toListR (dead : List ObjId) (s : State K) : List (K × ObjId) × State K :=
  (toList dead s, s)

/-- `size` as a state transformer. -/
def sizeR (s : State K) : Nat × State K :=
  (s.kwv.length, s)

/-- Well-formedness of a `MeekValueMap` state: `kwv` has `Map`-unique keys,
all allocated refs are below the counter with unique ids, registry tokens
are pairwise distinct (each `register` call passes a fresh `WeakRef`), and
every active cell matches the current index entry for its key. -/
structure WF (s : State K) : Prop where
  kwvNodup : (s.kwv.map Prod.fst).Nodup
  kwvLt : ∀ p ∈ s.kwv, p.2 < s.nextRef
  refsLt : ∀ p ∈ s.refs, p.1 < s.nextRef
  refsNodup : (s.refs.map Prod.fst).Nodup
  regsLt : ∀ r ∈ s.regs, r.token < s.nextRef
  tokensNodup : (s.regs.map Reg.token).Nodup
  activeLink : ∀ r ∈ s.regs, r.active = true →
    mapGet s.kwv r.held = some r.token ∧ mapGet s.refs r.token = some r.target

end MeekValueMap

namespace MeekSet

/-- One `FinalizationRegistry` cell of a `MeekSet` (src/set.ts):
`fr.register(value, ref, value)` — the target is the member object, the held
value is its `WeakRef`, and the unregister token is the member object. -/
structure Reg where
  target : ObjId
  held : RefId
  token : ObjId
  active : Bool
deriving DecidableEq

/-- The private state of a `MeekSet` (src/set.ts, interface Pri): `vwv` is
the `WeakMap` of member objects to their weak references, `wv` is the
insertion-ordered `Set` of weak references (the enumeration surface);
`refs`/`nextRef` record `WeakRef` allocation; `regs` is the registry. -/
structure State where
  vwv : List (ObjId × RefId)
  wv : List RefId
  refs : List (RefId × ObjId)
  regs : List Reg
  nextRef : RefId
deriving DecidableEq

/-- `new MeekSet()` with no initial values. -/
def empty : State := ⟨[], [], [], [], 0⟩

/-- `fr.unregister(tok)` where the token is the member object. -/
def unregister (regs : List Reg) (tok : ObjId) : List Reg :=
  regs.map fun r => if r.token = tok then { r with active := false } else r

/-- `WeakRef.prototype.deref` for a ref allocated by this set. -/
def deref (dead : List ObjId) (s : State) (r : RefId) : Option ObjId :=
  match mapGet s.refs r with
  | some t => if t ∈ dead then none else some t
  | none => none

/-- `MeekSet.prototype.add` (src/set.ts lines 78-88): if `vwv` has no ref for
the value, allocate `ref = new WeakRef(value)`, `fr.register(value, ref,
value)`, `vwv.set(value, ref)`, `wv.add(ref)`; otherwise do nothing. -/
def add (dead : List ObjId) (s : State) (v : ObjId) : State :=
  match wmGet dead s.vwv v with
  | some _ => s
  | none =>
    let ref := s.nextRef
    { vwv := mapSet s.vwv v ref
      wv := setAdd s.wv ref
      refs := s.refs ++ [(ref, v)]
      regs := s.regs ++ [⟨v, ref, v, true⟩]
      nextRef := ref + 1 }

/-- `MeekSet.prototype.delete` (src/set.ts lines 106-115): if `vwv` has a ref
for the value, `fr.unregister(value)`, delete it from `vwv`, and return
`wv.delete(ref)`; otherwise return false. -/
def delete (dead : List ObjId) (s : State) (v : ObjId) : Bool × State :=
  match wmGet dead s.vwv v with
  | some ref =>
    (s.wv.contains ref,
      { s with
        regs := unregister s.regs v
        vwv := mapDelete s.vwv v
        wv := s.wv.erase ref })
  | none => (false, s)

/-- `MeekSet.prototype.clear` (src/set.ts lines 93-98): `wv.clear()` and
replace `vwv` with a fresh `WeakMap`.  Note: no registration is detached. -/
def clear (s : State) : State :=
  { s with wv := [], vwv := [] }

/-- `MeekSet.prototype.has` (src/set.ts lines 172-174): `vwv.has(value)`. -/
def has (dead : List ObjId) (s : State) (v : ObjId) : Bool :=
  (wmGet dead s.vwv v).isSome

/-- `MeekSet.prototype.size` (src/set.ts lines 265-267): `wv.size`. -/
def size (s : State) : Nat := s.wv.length

/-- The value iterator (src/set.ts lines 63-70): walk `wv` in insertion
order, yielding only values whose ref still derefs. -/
def toList (dead : List ObjId) (s : State) : List ObjId :=
  s.wv.filterMap (deref dead s)

/-- Deliver the reclamation callback for the registry cell with held ref `h`
(held refs are fresh `WeakRef`s, hence unique per cell): if that cell is
active and its target is dead, retire the cell and run the callback
`wv.delete.bind(wv)` (src/set.ts line 46) on the held ref. -/
def fire (dead : List ObjId) (s : State) (h : RefId) : State :=
  match s.regs.find? (fun r => r.held == h && r.active && dead.contains r.target) with
  | some r =>
    { s with
      regs := s.regs.map fun c => if c.held = h then { c with active := false } else c
      wv := s.wv.erase r.held }
  | none => s

/-- Fold `MeekSet.prototype.add` over a list of values. -/
def addAll (dead : List ObjId) (s : State) (l : List ObjId) : State :=
  l.foldl (add dead) s

/-- `MeekSet.prototype.union` (src/set.ts lines 302-315) with another
`MeekSet` as the operand: build a `new MeekSet()`, add every live value of
this set in order, then add every value yielded by `other.keys()` (which for
a `MeekSet` operand yields its live values in order). -/
def union (dead : List ObjId) (a b : State) : State :=
  addAll dead (addAll dead empty (toList dead a)) (toList dead b)

/-- `MeekSet.prototype.difference` (src/set.ts lines 123-132) with another
`MeekSet` as the operand: build a `new MeekSet()` and add every live value of
this set for which `other.has(value)` is false, in order. -/
def difference (dead : List ObjId) (a b : State) : State :=
  addAll dead empty ((toList dead a).filter fun v => !(has dead b v))

/-- `MeekSet.prototype.intersection` (src/set.ts lines 182-195) with another
`MeekSet` as the operand: build a `new MeekSet()` and add every live value of
this set for which `other.has(value)` is true, in order. -/
def intersection (dead : List ObjId) (a b : State) : State :=
  addAll dead empty ((toList dead a).filter fun v => has dead b v)

/-- `MeekSet.prototype.add` honouring the weak-holdability precondition:
for a primitive, `vwv.get(value)` returns `undefined` and then
`new WeakRef(value)` (src/set.ts line 82) throws before any mutation. -/
def addChecked (dead : List ObjId) (s : State) (v : JVal) : Bool × State :=
  match v with
  | .prim _ => (true, s)
  | .obj i => (false, add dead s i)

/-- `has` as a state transformer: the read path only queries `vwv`. -/
def hasR (dead : List ObjId) (s : State) (v : ObjId) : Bool × State :=
  ((wmGet dead s.vwv v).isSome, s)

/-- The value iterator as a state transformer: it walks `wv` and derefs,
performing no mutation. -/
def toListR (dead : List ObjId) (s : State) : List ObjId × State :=
  (toList dead s, s)

/-- `size` as a state transformer. -/
def sizeR (s : State) : Nat × State :=
  (s.wv.length, s)

/-- Well-formedness of a `MeekSet` state: `vwv` has unique keys, `wv` is a
`Set` (no duplicates) of allocated refs, held refs of registry cells are
pairwise distinct (each `register` call passes a fresh `WeakRef`), every
live `vwv` entry is backed by `wv` and `refs`, every `wv` ref wraps a value
that (while live) indexes back to it, and every active cell wraps its own
target. -/
structure WF (dead : List ObjId) (s : State) : Prop where
  vwvNodup : (s.vwv.map Prod.fst).Nodup
  vwvLt : ∀ p ∈ s.vwv, p.2 < s.nextRef
  wvNodup : s.wv.Nodup
  wvLt : ∀ r ∈ s.wv, r < s.nextRef
  refsLt : ∀ p ∈ s.refs, p.1 < s.nextRef
  refsNodup : (s.refs.map Prod.fst).Nodup
  heldNodup : (s.regs.map Reg.held).Nodup
  heldLt : ∀ r ∈ s.regs, r.held < s.nextRef
  vwvLink : ∀ p ∈ s.vwv, p.1 ∉ dead →
    p.2 ∈ s.wv ∧ mapGet s.refs p.2 = some p.1
  wvLink : ∀ r ∈ s.wv, ∃ v, mapGet s.refs r = some v ∧
    (v ∉ dead → mapGet s.vwv v = some r)
  regLink : ∀ r ∈ s.regs, r.active = true → mapGet s.refs r.held = some r.target

end MeekSet

namespace MeekMap

/-- One `FinalizationRegistry` cell of a `MeekMap` (src/map.ts):
`fr.register(key, ref, key)` — the target is the key object, the held value
is its `WeakRef`, and the unregister token is the key object. -/
structure Reg where
  target : ObjId
  held : RefId
  token : ObjId
  active : Bool
deriving DecidableEq

/-- The private state of a `MeekMap` (src/map.ts, interface Pri): `kwk` is
the `WeakMap` of keys to weak references to keys, `wk` is the
insertion-ordered `Set` of weak references (the enumeration surface), `kv` is
the `WeakMap` of keys to values; `refs`/`nextRef` record `WeakRef`
allocation; `regs` is the registry. -/
structure State (V : Type) where
  kwk : List (ObjId × RefId)
  wk : List RefId
  kv : List (ObjId × V)
  refs : List (RefId × ObjId)
  regs : List Reg
  nextRef : RefId
deriving DecidableEq

variable {V : Type}

/-- `new MeekMap()` with no initial pairs. -/
def empty : State V := ⟨[], [], [], [], [], 0⟩

/-- `WeakRef.prototype.deref` for a ref allocated by this map. -/
def deref (dead : List ObjId) (s : State V) (r : RefId) : Option ObjId :=
  match mapGet s.refs r with
  | some t => if t ∈ dead then none else some t
  | none => none

/-- `MeekMap.prototype.set` (src/map.ts lines 194-205): if `kwk` has no ref
for the key, allocate `ref = new WeakRef(key)`, `fr.register(key, ref, key)`,
`kwk.set(key, ref)`; in both cases `wk.add(ref)` and `kv.set(key, value)`. -/
def set (dead : List ObjId) (s : State V) (k : ObjId) (v : V) : State V :=
  match wmGet dead s.kwk k with
  | some ref =>
    { s with wk := setAdd s.wk ref, kv := mapSet s.kv k v }
  | none =>
    let ref := s.nextRef
    { kwk := mapSet s.kwk k ref
      wk := setAdd s.wk ref
      kv := mapSet s.kv k v
      refs := s.refs ++ [(ref, k)]
      regs := s.regs ++ [⟨k, ref, k, true⟩]
      nextRef := ref + 1 }

/-- `MeekMap.prototype.delete` (src/map.ts lines 99-109): if `kwk` has a ref
for the key, `fr.unregister(key)`, delete the key from `kwk` and `kv`, and
return `wk.delete(ref)`; otherwise return false. -/
def delete (dead : List ObjId) (s : State V) (k : ObjId) : Bool × State V :=
  match wmGet dead s.kwk k with
  | some ref =>
    (s.wk.contains ref,
      { s with
        regs := s.regs.map fun r =>
          if r.token = k then { r with active := false } else r
        kwk := mapDelete s.kwk k
        kv := mapDelete s.kv k
        wk := s.wk.erase ref })
  | none => (false, s)

/-- `MeekMap.prototype.clear` (src/map.ts lines 84-91): `wk.clear()` and
replace `kwk` and `kv` with fresh `WeakMap`s.  Note: no registration is
detached. -/
def clear (s : State V) : State V :=
  { s with wk := [], kwk := [], kv := [] }

/-- `MeekMap.prototype.get` (src/map.ts lines 151-160): look up the key's
ref in `kwk`, deref it, and on a live deref look the dereffed key up in
`kv`. -/
def get (dead : List ObjId) (s : State V) (k : ObjId) : Option V :=
  match wmGet dead s.kwk k with
  | some ref =>
    match deref dead s ref with
    | some key2 => wmGet dead s.kv key2
    | none => none
  | none => none

/-- `MeekMap.prototype.has` (src/map.ts lines 168-170):
`!!kwk.get(key)?.deref()`. -/
def has (dead : List ObjId) (s : State V) (k : ObjId) : Bool :=
  ((wmGet dead s.kwk k).bind (deref dead s)).isSome

/-- `MeekMap.prototype.size` (src/map.ts lines 212-214): `wk.size`. -/
def size (s : State V) : Nat := s.wk.length

/-- The key iterator (src/map.ts lines 177-185): walk `wk` in insertion
order, yielding only keys whose ref still derefs. -/
def keysList (dead : List ObjId) (s : State V) : List ObjId :=
  s.wk.filterMap (deref dead s)

/-- Deliver the reclamation callback for the registry cell with held ref `h`
(held refs are fresh `WeakRef`s, hence unique per cell): if that cell is
active and its target is dead, retire the cell and run the callback
`wk.delete.bind(wk)` (src/map.ts line 51) on the held ref. -/
def fire (dead : List ObjId) (s : State V) (h : RefId) : State V :=
  match s.regs.find? (fun r => r.held == h && r.active && dead.contains r.target) with
  | some r =>
    { s with
      regs := s.regs.map fun c => if c.held = h then { c with active := false } else c
      wk := s.wk.erase r.held }
  | none => s

/-- `MeekMap.prototype.set` honouring the weak-holdability precondition:
for a primitive key, `kwk.get(key)` returns `undefined` and then
`new WeakRef(key)` (src/map.ts line 198) throws before any mutation. -/
def setChecked (dead : List ObjId) (s : State V) (k : JVal) (v : V) :
    Bool × State V :=
  match k with
  | .prim _ => (true, s)
  | .obj i => (false, set dead s i v)

/-- `get` as a state transformer: the read path only queries `kwk`, derefs,
and queries `kv`, none of which mutates. -/
def getR (dead : List ObjId) (s : State V) (k : ObjId) : Option V × State V :=
  (get dead s k, s)

/-- `has` as a state transformer. -/
def hasR (dead : List ObjId) (s : State V) (k : ObjId) : Bool × State V :=
  (has dead s k, s)

/-- The key iterator as a state transformer. -/
def keysListR (dead : List ObjId) (s : State V) : List ObjId × State V :=
  (keysList dead s, s)

/-- Caller-driven or host-driven events against one `MeekMap`: the public
mutators, delivery of one reclamation callback, and the reclamation of one
object (which only grows the dead list). -/
inductive Op (V : Type) where
  | setOp (k : ObjId) (v : V)
  | delOp (k : ObjId)
  | clearOp
  | fireOp (h : RefId)
  | killOp (o : ObjId)
deriving DecidableEq

/-- One event step: the container state together with the dead list. -/
def step (c : State V × List ObjId) : Op V → State V × List ObjId
  | .setOp k v => (set c.2 c.1 k v, c.2)
  | .delOp k => ((delete c.2 c.1 k).2, c.2)
  | .clearOp => (clear c.1, c.2)
  | .fireOp h => (fire c.2 c.1 h, c.2)
  | .killOp o => (c.1, o :: c.2)

/-- Run a sequence of events. -/
def run (c : State V × List ObjId) (ops : List (Op V)) : State V × List ObjId :=
  ops.foldl step c

/-- An event avoids key `k` when it is not a delete of `k`, not a clear, not
an overwrite of `k`, and not the reclamation of `k` itself (the caller keeps
`k` strongly reachable). -/
def avoids (k : ObjId) : Op V → Bool
  | .setOp k' _ => k' != k
  | .delOp k' => k' != k
  | .clearOp => false
  | .fireOp _ => true
  | .killOp o => o != k

/-- Well-formedness of a `MeekMap` state: all allocated refs are below the
allocation counter, and every `kwk` entry's ref wraps that entry's key. -/
structure WF (s : State V) : Prop where
  refsLt : ∀ p ∈ s.refs, p.1 < s.nextRef
  kwkLink : ∀ p ∈ s.kwk, mapGet s.refs p.2 = some p.1

/-- The state facts behind a successful `get k = some v`: the index maps `k`
to a ref wrapping `k`, and `kv` stores `v` for `k`. -/
def entryInv (s : State V) (k : ObjId) (v : V) : Prop :=
  ∃ r, mapGet s.kwk k = some r ∧ mapGet s.refs r = some k ∧
    mapGet s.kv k = some v

end MeekMap

/-! Lemmas about the JavaScript `Map` / `WeakMap` / `Set` embedding. -/

section AssocLemmas

variable {K B : Type} [DecidableEq K]

theorem mapGet_cons (k' : K) (v : B) (t : List (K × B)) (k : K) :
    mapGet ((k', v) :: t) k = if k' = k then some v else mapGet t k := rfl

theorem mapGet_mapSet_self (l : List (K × B)) (k : K) (v : B) :
    mapGet (mapSet l k v) k = some v := by
  induction l with
  | nil => simp [mapSet, mapGet]
  | cons p t ih =>
    obtain ⟨a, b⟩ := p
    by_cases h : a = k <;> simp [mapSet, mapGet, h, ih]

theorem mapGet_mapSet_ne (l : List (K × B)) {k k' : K} (v : B) (h : k' ≠ k) :
    mapGet (mapSet l k v) k' = mapGet l k' := by
  induction l with
  | nil => simp [mapSet, mapGet, Ne.symm h]
  | cons p t ih =>
    obtain ⟨a, b⟩ := p
    by_cases ha : a = k
    · subst ha
      simp [mapSet, mapGet, Ne.symm h]
    · simp [mapSet, mapGet, ha, ih]

theorem mapGet_mapDelete_ne (l : List (K × B)) {k k' : K} (h : k' ≠ k) :
    mapGet (mapDelete l k) k' = mapGet l k' := by
  induction l with
  | nil => simp [mapDelete]
  | cons p t ih =>
    obtain ⟨a, b⟩ := p
    by_cases ha : a = k
    · subst ha
      simp [mapDelete, mapGet, Ne.symm h]
    · simp [mapDelete, mapGet, ha, ih]

theorem mapGet_eq_none_iff (l : List (K × B)) (k : K) :
    mapGet l k = none ↔ k ∉ l.map Prod.fst := by
  induction l with
  | nil => simp [mapGet]
  | cons p t ih =>
    obtain ⟨a, b⟩ := p
    by_cases ha : a = k
    · subst ha
      simp [mapGet]
    · simp [mapGet, ha, ih]
      exact fun _ h => ha h.symm

theorem mapGet_mapDelete_self (l : List (K × B)) (k : K)
    (h : (l.map Prod.fst).Nodup) :
    mapGet (mapDelete l k) k = none := by
  induction l with
  | nil => simp [mapDelete, mapGet]
  | cons p t ih =>
    obtain ⟨a, b⟩ := p
    simp only [List.map_cons, List.nodup_cons] at h
    by_cases ha : a = k
    · subst ha
      simpa [mapDelete, mapGet_eq_none_iff] using h.1
    · simp [mapDelete, mapGet, ha, ih h.2]

theorem mapGet_append_left {l : List (K × B)} (l' : List (K × B)) {k : K}
    {v : B} (h : mapGet l k = some v) :
    mapGet (l ++ l') k = some v := by
  induction l with
  | nil => simp [mapGet] at h
  | cons p t ih =>
    obtain ⟨a, b⟩ := p
    by_cases ha : a = k
    · simp_all [mapGet]
    · simp_all [mapGet, ha]

theorem mapGet_append_right {l : List (K × B)} (l' : List (K × B)) {k : K}
    (h : mapGet l k = none) :
    mapGet (l ++ l') k = mapGet l' k := by
  induction l with
  | nil => simp
  | cons p t ih =>
    obtain ⟨a, b⟩ := p
    by_cases ha : a = k
    · simp_all [mapGet]
    · simp_all [mapGet, ha]

theorem mem_of_mapGet_eq_some {l : List (K × B)} {k : K} {v : B}
    (h : mapGet l k = some v) : (k, v) ∈ l := by
  induction l with
  | nil => simp [mapGet] at h
  | cons p t ih =>
    obtain ⟨a, b⟩ := p
    by_cases ha : a = k
    · subst ha
      simp [mapGet] at h
      simp [h]
    · simp [mapGet, ha] at h
      exact List.mem_cons_of_mem _ (ih h)

theorem mem_mapSet {l : List (K × B)} {k : K} {v : B} {p : K × B}
    (h : p ∈ mapSet l k v) : p ∈ l ∨ p = (k, v) := by
  induction l with
  | nil => simp [mapSet] at h; simp [h]
  | cons q t ih =>
    obtain ⟨a, b⟩ := q
    by_cases ha : a = k
    · subst ha
      simp [mapSet] at h
      rcases h with h | h
      · exact Or.inr h
      · exact Or.inl (List.mem_cons_of_mem _ h)
    · simp [mapSet, ha] at h
      rcases h with h | h
      · exact Or.inl (by simp [h])
      · rcases ih h with h' | h'
        · exact Or.inl (List.mem_cons_of_mem _ h')
        · exact Or.inr h'

theorem mapDelete_sublist (l : List (K × B)) (k : K) :
    (mapDelete l k).Sublist l := by
  induction l with
  | nil => simp [mapDelete]
  | cons p t ih =>
    obtain ⟨a, b⟩ := p
    by_cases ha : a = k
    · simp [mapDelete, ha]
    · simp only [mapDelete, ha, if_false]
      exact List.Sublist.cons₂ (a, b) ih

theorem mem_mapDelete {l : List (K × B)} {k : K} {p : K × B}
    (h : p ∈ mapDelete l k) : p ∈ l :=
  (mapDelete_sublist l k).mem h

theorem map_fst_mapDelete_sublist (l : List (K × B)) (k : K) :
    ((mapDelete l k).map Prod.fst).Sublist (l.map Prod.fst) :=
  (mapDelete_sublist l k).map Prod.fst

theorem map_fst_mapSet_of_get_some {l : List (K × B)} {k : K} {w : B}
    (v : B) (h : mapGet l k = some w) :
    (mapSet l k v).map Prod.fst = l.map Prod.fst := by
  induction l with
  | nil => simp [mapGet] at h
  | cons p t ih =>
    obtain ⟨a, b⟩ := p
    by_cases ha : a = k
    · subst ha
      simp [mapSet]
    · simp [mapGet, ha] at h
      simp [mapSet, ha, ih h]

theorem map_fst_mapSet_of_get_none {l : List (K × B)} {k : K}
    (v : B) (h : mapGet l k = none) :
    (mapSet l k v).map Prod.fst = l.map Prod.fst ++ [k] := by
  induction l with
  | nil => simp [mapSet]
  | cons p t ih =>
    obtain ⟨a, b⟩ := p
    by_cases ha : a = k
    · simp [mapGet, ha] at h
    · simp [mapGet, ha] at h
      simp [mapSet, ha, ih h]

theorem length_mapSet_of_get_some {l : List (K × B)} {k : K} {w : B}
    (v : B) (h : mapGet l k = some w) :
    (mapSet l k v).length = l.length := by
  have := congrArg List.length (map_fst_mapSet_of_get_some v h)
  simpa using this

theorem length_mapSet_of_get_none {l : List (K × B)} {k : K}
    (v : B) (h : mapGet l k = none) :
    (mapSet l k v).length = l.length + 1 := by
  have := congrArg List.length (map_fst_mapSet_of_get_none v h)
  simpa using this

theorem length_mapDelete_of_get_some {l : List (K × B)} {k : K} {w : B}
    (h : mapGet l k = some w) :
    (mapDelete l k).length + 1 = l.length := by
  induction l with
  | nil => simp [mapGet] at h
  | cons p t ih =>
    obtain ⟨a, b⟩ := p
    by_cases ha : a = k
    · simp [mapDelete, ha]
    · simp [mapGet, ha] at h
      simp [mapDelete, ha, ih h]

theorem wmGet_of_not_dead {dead : List ObjId} {l : List (ObjId × B)}
    {k : ObjId} (h : k ∉ dead) :
    wmGet dead l k = mapGet l k := by
  simp [wmGet, h]

theorem nodup_filterMap {A C : Type} {f : A → Option C} {l : List A}
    (hn : l.Nodup)
    (hinj : ∀ a ∈ l, ∀ b ∈ l, ∀ c, f a = some c → f b = some c → a = b) :
    (l.filterMap f).Nodup := by
  induction l with
  | nil => simp
  | cons a t ih =>
    simp only [List.nodup_cons] at hn
    have ht : (t.filterMap f).Nodup := by
      refine ih hn.2 ?_
      intro x hx y hy c hxc hyc
      exact hinj x (List.mem_cons_of_mem _ hx) y (List.mem_cons_of_mem _ hy) c hxc hyc
    cases hfa : f a with
    | none => simpa [hfa] using ht
    | some c =>
      rw [show List.filterMap f (a :: t) = c :: List.filterMap f t from by
        simp [List.filterMap_cons, hfa]]
      refine List.nodup_cons.2 ⟨?_, ht⟩
      intro hc
      obtain ⟨b, hb, hbc⟩ := List.mem_filterMap.1 hc
      have : a = b :=
        hinj a (List.mem_cons_self a t) b (List.mem_cons_of_mem _ hb) c hfa hbc
      exact hn.1 (this ▸ hb)

theorem bool_eq_of_true_iff {b1 b2 : Bool} (h : b1 = true ↔ b2 = true) :
    b1 = b2 := by
  cases b1 <;> cases b2 <;> simp_all

end AssocLemmas

/-! Registry lemmas for `MeekValueMap`. -/

namespace MeekValueMap

variable {K : Type} [DecidableEq K]

theorem mem_of_mem_unregister_of_active {regs : List (Reg K)} {tok : RefId}
    {r : Reg K} (hm : r ∈ unregister regs tok) (ha : r.active = true) :
    r ∈ regs ∧ r.token ≠ tok := by
  obtain ⟨c, hc, heq⟩ := List.mem_map.1 hm
  by_cases h : c.token = tok
  · rw [if_pos h] at heq
    rw [← heq] at ha
    simp at ha
  · rw [if_neg h] at heq
    subst heq
    exact ⟨hc, h⟩

theorem inactive_of_mem_unregister {regs : List (Reg K)} {tok : RefId}
    {r : Reg K} (hm : r ∈ unregister regs tok) (ht : r.token = tok) :
    r.active = false := by
  obtain ⟨c, _, heq⟩ := List.mem_map.1 hm
  by_cases h : c.token = tok
  · rw [if_pos h] at heq
    rw [← heq]
  · rw [if_neg h] at heq
    subst heq
    exact absurd ht h

theorem fields_of_mem_unregister {regs : List (Reg K)} {tok : RefId}
    {r : Reg K} (hm : r ∈ unregister regs tok) :
    ∃ c ∈ regs, r.token = c.token ∧ r.held = c.held ∧ r.target = c.target ∧
      (r.active = true → c.active = true) := by
  obtain ⟨c, hc, heq⟩ := List.mem_map.1 hm
  refine ⟨c, hc, ?_⟩
  by_cases h : c.token = tok
  · rw [if_pos h] at heq
    rw [← heq]
    simp
  · rw [if_neg h] at heq
    subst heq
    simp

theorem inactive_of_foldl_unregister {ps : List (K × RefId)} :
    ∀ {regs : List (Reg K)},
      (∀ c ∈ regs, c.active = true → c.token ∈ ps.map Prod.snd) →
      ∀ r ∈ ps.foldl (fun rs p => unregister rs p.2) regs, r.active = false := by
  induction ps with
  | nil =>
    intro regs h r hr
    simp only [List.foldl_nil] at hr
    cases hra : r.active
    · rfl
    · have := h r hr hra
      simp at this
  | cons p t ih =>
    intro regs h r hr
    simp only [List.foldl_cons] at hr
    refine ih ?_ r hr
    intro c hc hact
    obtain ⟨hc0, hmem⟩ := mem_of_mem_unregister_of_active hc hact
    have := h c hc0 hact
    simp only [List.map_cons, List.mem_cons] at this
    rcases this with h' | h'
    · exact absurd h' hmem
    · exact h'

/-- After `clear`, every registry cell is inactive: the code unregisters the
token of every current index entry, and well-formedness ties every active
cell to a current index entry. -/
theorem clear_all_inactive {s : State K} (hwf : WF s) :
    ∀ r ∈ (clear s).regs, r.active = false := by
  refine inactive_of_foldl_unregister ?_
  intro c hc hact
  obtain ⟨h1, _⟩ := hwf.activeLink c hc hact
  have := mem_of_mapGet_eq_some h1
  exact List.mem_map.2 ⟨(c.held, c.token), this, rfl⟩

/-- After `clear`, no registry cell can fire: delivery finds no active cell. -/
theorem fire_clear_eq {s : State K} (hwf : WF s) (dead : List ObjId)
    (tok : RefId) :
    fire dead (clear s) tok = clear s := by
  unfold fire
  have hnone :
      (clear s).regs.find?
        (fun r => r.token == tok && r.active && dead.contains r.target) = none := by
    refine List.find?_eq_none.2 ?_
    intro r hr
    have := clear_all_inactive hwf r hr
    simp [this]
  rw [hnone]

theorem map_token_unregister (regs : List (Reg K)) (tok : RefId) :
    (unregister regs tok).map Reg.token = regs.map Reg.token := by
  induction regs with
  | nil => rfl
  | cons c t ih =>
    by_cases h : c.token = tok
    · simpa [unregister, h] using ih
    · simpa [unregister, h] using ih

theorem mapGet_refs_nextRef {s : State K} (hwf : WF s) :
    mapGet s.refs s.nextRef = none := by
  rw [mapGet_eq_none_iff]
  intro hm
  obtain ⟨p, hp, hfst⟩ := List.mem_map.1 hm
  exact absurd (hfst ▸ hwf.refsLt p hp) (Nat.lt_irrefl _)

/-- `set` preserves well-formedness. -/
theorem WF_set {s : State K} (hwf : WF s) (k : K) (v : ObjId) :
    WF (set s k v) := by
  have hfresh : mapGet s.refs s.nextRef = none := mapGet_refs_nextRef hwf
  have hknotmem : s.nextRef ∉ s.kwv.map Prod.snd := by
    intro hm
    obtain ⟨p, hp, hsnd⟩ := List.mem_map.1 hm
    exact absurd (hsnd ▸ hwf.kwvLt p hp) (Nat.lt_irrefl _)
  constructor
  · show ((mapSet s.kwv k s.nextRef).map Prod.fst).Nodup
    cases hold : mapGet s.kwv k with
    | some old => rw [map_fst_mapSet_of_get_some _ hold]; exact hwf.kwvNodup
    | none =>
      rw [map_fst_mapSet_of_get_none _ hold]
      rw [List.nodup_append]
      refine ⟨hwf.kwvNodup, List.nodup_singleton k, ?_⟩
      intro a ha hb
      simp at hb
      subst hb
      exact (mapGet_eq_none_iff _ _).1 hold ha
  · intro p hp
    rcases mem_mapSet hp with h | h
    · exact Nat.lt_trans (hwf.kwvLt p h) (Nat.lt_succ_self _)
    · rw [h]
      exact Nat.lt_succ_self _
  · intro p hp
    rcases List.mem_append.1 hp with h | h
    · exact Nat.lt_trans (hwf.refsLt p h) (Nat.lt_succ_self _)
    · simp at h
      rw [h]
      exact Nat.lt_succ_self _
  · show ((s.refs ++ [(s.nextRef, v)]).map Prod.fst).Nodup
    rw [List.map_append, List.nodup_append]
    refine ⟨hwf.refsNodup, by simp, ?_⟩
    intro a ha hb
    simp at hb
    subst hb
    obtain ⟨p, hp, hfst⟩ := List.mem_map.1 ha
    exact absurd (hfst ▸ hwf.refsLt p hp) (Nat.lt_irrefl _)
  · intro r hr
    rcases List.mem_append.1 hr with h | h
    · have htok : r.token ∈ s.regs.map Reg.token := by
        cases hold : mapGet s.kwv k with
        | some old =>
          rw [hold] at h
          obtain ⟨c, hc, htk, _⟩ := fields_of_mem_unregister h
          exact htk ▸ List.mem_map.2 ⟨c, hc, rfl⟩
        | none =>
          rw [hold] at h
          exact List.mem_map.2 ⟨r, h, rfl⟩
      obtain ⟨c, hc, hfst⟩ := List.mem_map.1 htok
      exact hfst ▸ Nat.lt_trans (hwf.regsLt c hc) (Nat.lt_succ_self _)
    · simp at h
      rw [h]
      exact Nat.lt_succ_self _
  · show ((_ ++ [(⟨v, k, s.nextRef, true⟩ : Reg K)]).map Reg.token).Nodup
    rw [List.map_append, List.nodup_append]
    have hsame : ∀ regs0, regs0 =
        (match mapGet s.kwv k with
          | some old => unregister s.regs old
          | none => s.regs) → regs0.map Reg.token = s.regs.map Reg.token := by
      intro regs0 h0
      cases hold : mapGet s.kwv k with
      | some old => rw [hold] at h0; rw [h0]; exact map_token_unregister _ _
      | none => rw [hold] at h0; rw [h0]
    rw [hsame _ rfl]
    refine ⟨hwf.tokensNodup, by simp, ?_⟩
    intro a ha hb
    simp at hb
    subst hb
    obtain ⟨c, hc, hfst⟩ := List.mem_map.1 ha
    exact absurd (hfst ▸ hwf.regsLt c hc) (Nat.lt_irrefl _)
  · intro r hr hact
    rcases List.mem_append.1 hr with h | h
    · have hr' : r ∈ s.regs ∧ mapGet s.kwv r.held ≠ some r.token ∨
          r ∈ s.regs ∧ r.held ≠ k := by
        cases hold : mapGet s.kwv k with
        | some old =>
          rw [hold] at h
          obtain ⟨hmem, hne⟩ := mem_of_mem_unregister_of_active h hact
          refine Or.inr ⟨hmem, ?_⟩
          intro hk
          obtain ⟨l1, _⟩ := hwf.activeLink r hmem hact
          rw [hk, hold] at l1
          exact hne (Option.some_injective _ l1.symm)
        | none =>
          rw [hold] at h
          by_cases hk : r.held = k
          · obtain ⟨l1, _⟩ := hwf.activeLink r h hact
            rw [hk, hold] at l1
            exact absurd l1 (by simp)
          · exact Or.inr ⟨h, hk⟩
      rcases hr' with ⟨hmem, hne⟩ | ⟨hmem, hne⟩
      · obtain ⟨l1, _⟩ := hwf.activeLink r hmem hact
        exact absurd l1 hne
      · obtain ⟨l1, l2⟩ := hwf.activeLink r hmem hact
        constructor
        · show mapGet (mapSet s.kwv k s.nextRef) r.held = some r.token
          rw [mapGet_mapSet_ne _ _ hne]
          exact l1
        · show mapGet (s.refs ++ [(s.nextRef, v)]) r.token = some r.target
          exact mapGet_append_left _ l2
    · simp at h
      subst h
      constructor
      · exact mapGet_mapSet_self _ _ _
      · show mapGet (s.refs ++ [(s.nextRef, v)]) s.nextRef = some v
        rw [mapGet_append_right _ hfresh]
        simp [mapGet]

theorem deref_eq_some_iff (dead : List ObjId) (s : State K) (r : RefId)
    (v : ObjId) :
    deref dead s r = some v ↔ mapGet s.refs r = some v ∧ v ∉ dead := by
  unfold deref
  cases hm : mapGet s.refs r with
  | none => simp
  | some t =>
    show (if t ∈ dead then none else some t) = some v ↔
      some t = some v ∧ v ∉ dead
    by_cases ht : t ∈ dead
    · rw [if_pos ht]
      constructor
      · intro h
        exact absurd h (by simp)
      · rintro ⟨h1, h2⟩
        exact absurd ((Option.some_injective _ h1) ▸ ht) h2
    · rw [if_neg ht]
      constructor
      · intro h
        exact ⟨h, (Option.some_injective _ h) ▸ ht⟩
      · rintro ⟨h1, _⟩
        exact h1

/-- `fire` preserves well-formedness. -/
theorem WF_fire {s : State K} (hwf : WF s) (dead : List ObjId) (tok : RefId) :
    WF (fire dead s tok) := by
  unfold fire
  cases hf : s.regs.find?
      (fun r => r.token == tok && r.active && dead.contains r.target) with
  | none => exact hwf
  | some r =>
    have hp := List.find?_some hf
    simp only [Bool.and_eq_true, beq_iff_eq] at hp
    have hmem := List.mem_of_find?_eq_some hf
    obtain ⟨⟨htok, hact⟩, htgt⟩ := hp
    show WF (callback { s with regs := unregister s.regs tok } r.held)
    constructor
    · exact hwf.kwvNodup.sublist (map_fst_mapDelete_sublist _ _)
    · intro p hp'
      exact hwf.kwvLt p (mem_mapDelete hp')
    · exact hwf.refsLt
    · exact hwf.refsNodup
    · intro c hc
      obtain ⟨c0, hc0, htk, _⟩ := fields_of_mem_unregister hc
      exact htk ▸ hwf.regsLt c0 hc0
    · show ((unregister s.regs tok).map Reg.token).Nodup
      rw [map_token_unregister]
      exact hwf.tokensNodup
    · intro c hc hcact
      obtain ⟨hc0, hcne⟩ := mem_of_mem_unregister_of_active hc hcact
      obtain ⟨l1, l2⟩ := hwf.activeLink c hc0 hcact
      refine ⟨?_, l2⟩
      have hheld : c.held ≠ r.held := by
        intro he
        obtain ⟨m1, _⟩ := hwf.activeLink r hmem hact
        rw [he, m1] at l1
        exact hcne ((Option.some_injective _ l1) ▸ htok)
      show mapGet (mapDelete s.kwv r.held) c.held = some c.token
      rw [mapGet_mapDelete_ne _ hheld]
      exact l1

/-- A live lookup survives the delivery of any reclamation callback. -/
theorem get_fire {s : State K} (hwf : WF s) {dead : List ObjId} {k : K}
    {v : ObjId} (hget : get dead s k = some v) (hv : v ∉ dead)
    (tok : RefId) : get dead (fire dead s tok) k = some v := by
  obtain ⟨rk, hrk, hdrk⟩ := Option.bind_eq_some.1 hget
  obtain ⟨hrefs, _⟩ := (deref_eq_some_iff _ _ _ _).1 hdrk
  unfold fire
  cases hf : s.regs.find?
      (fun r => r.token == tok && r.active && dead.contains r.target) with
  | none => exact hget
  | some r =>
    have hp := List.find?_some hf
    simp only [Bool.and_eq_true, beq_iff_eq] at hp
    have hmem := List.mem_of_find?_eq_some hf
    obtain ⟨⟨htok, hact⟩, htgt⟩ := hp
    have htgt' : r.target ∈ dead := by simpa using htgt
    have hheld : r.held ≠ k := by
      intro he
      obtain ⟨l1, l2⟩ := hwf.activeLink r hmem hact
      rw [he, hrk] at l1
      have hrkeq : rk = r.token := Option.some_injective _ l1
      rw [← hrkeq] at l2
      rw [hrefs] at l2
      refine hv ?_
      rw [Option.some_injective _ l2]
      exact htgt'
    show get dead (callback { s with regs := unregister s.regs tok } r.held) k
      = some v
    show (mapGet (mapDelete s.kwv r.held) k).bind
      (deref dead (callback { s with regs := unregister s.regs tok } r.held))
      = some v
    rw [mapGet_mapDelete_ne _ (Ne.symm hheld), hrk, Option.some_bind]
    rw [deref_eq_some_iff]
    exact ⟨hrefs, hv⟩

/-- A live lookup survives any sequence of reclamation deliveries. -/
theorem get_fireMany {dead : List ObjId} {k : K} {v : ObjId}
    (hv : v ∉ dead) (toks : List RefId) :
    ∀ {s : State K}, WF s → get dead s k = some v →
      get dead (fireMany dead s toks) k = some v := by
  induction toks with
  | nil =>
    intro s _ hget
    exact hget
  | cons tok t ih =>
    intro s hwf hget
    simp only [fireMany, List.foldl_cons] at *
    exact ih (WF_fire hwf dead tok) (get_fire hwf hget hv tok)

/-- Setting a key to a live value makes `get` return exactly that value. -/
theorem get_set_self {s : State K} (hwf : WF s) {dead : List ObjId} (k : K)
    {v : ObjId} (hv : v ∉ dead) : get dead (set s k v) k = some v := by
  show (mapGet (mapSet s.kwv k s.nextRef) k).bind (deref dead (set s k v))
    = some v
  rw [mapGet_mapSet_self, Option.some_bind, deref_eq_some_iff]
  constructor
  · show mapGet (s.refs ++ [(s.nextRef, v)]) s.nextRef = some v
    rw [mapGet_append_right _ (mapGet_refs_nextRef hwf)]
    simp [mapGet]
  · exact hv

end MeekValueMap

/-! Enumeration-surface lemmas for `MeekSet`. -/

namespace MeekSet

/-- Delivering a reclamation callback whose held ref is no longer in the
enumeration set removes nothing: the callback is `wv.delete.bind(wv)` and
only ever erases its own held ref. -/
theorem fire_wv_vwv_of_not_mem {dead : List ObjId} {s : State} {h : RefId}
    (hnm : h ∉ s.wv) :
    (fire dead s h).wv = s.wv ∧ (fire dead s h).vwv = s.vwv := by
  unfold fire
  cases hf : s.regs.find?
      (fun r => r.held == h && r.active && dead.contains r.target) with
  | none => exact ⟨rfl, rfl⟩
  | some r =>
    have hp := List.find?_some hf
    simp only [Bool.and_eq_true, beq_iff_eq] at hp
    constructor
    · simp only
      rw [hp.1.1, List.erase_of_not_mem hnm]
    · rfl

theorem delete_eq_of_wmGet_none {dead : List ObjId} {s : State} {v : ObjId}
    (h : wmGet dead s.vwv v = none) : delete dead s v = (false, s) := by
  simp [delete, h]

theorem nextRef_le_add (dead : List ObjId) (s : State) (v : ObjId) :
    s.nextRef ≤ (add dead s v).nextRef := by
  unfold add
  cases wmGet dead s.vwv v <;> simp

theorem mem_wv_add {dead : List ObjId} {s : State} {v : ObjId} {r : RefId}
    (hm : r ∈ (add dead s v).wv) : r ∈ s.wv ∨ r = s.nextRef := by
  unfold add at hm
  cases hW : wmGet dead s.vwv v with
  | some w =>
    rw [hW] at hm
    exact Or.inl hm
  | none =>
    rw [hW] at hm
    simp only [setAdd] at hm
    by_cases hc : s.nextRef ∈ s.wv
    · rw [if_pos hc] at hm
      exact Or.inl hm
    · rw [if_neg hc] at hm
      rcases List.mem_append.1 hm with h | h
      · exact Or.inl h
      · simp at h
        exact Or.inr h

theorem mem_wv_addAll {dead : List ObjId} {l : List ObjId} :
    ∀ {s : State} {r : RefId}, r ∈ (addAll dead s l).wv →
      r ∈ s.wv ∨ s.nextRef ≤ r := by
  induction l with
  | nil =>
    intro s r hm
    exact Or.inl hm
  | cons v t ih =>
    intro s r hm
    simp only [addAll, List.foldl_cons] at hm
    rcases ih hm with h | h
    · rcases mem_wv_add h with h' | h'
      · exact Or.inl h'
      · exact Or.inr (h' ▸ Nat.le_refl _)
    · exact Or.inr (Nat.le_trans (nextRef_le_add dead s v) h)

/-- Any ref present in the enumeration set after a `clear` followed by any
sequence of `add`s is a ref allocated at or after the `clear`. -/
theorem mem_wv_addAll_clear {dead : List ObjId} {s : State} {l : List ObjId}
    {r : RefId} (hm : r ∈ (addAll dead (clear s) l).wv) :
    s.nextRef ≤ r := by
  rcases mem_wv_addAll hm with h | h
  · simp [clear] at h
  · exact h

theorem deref_some_iff (dead : List ObjId) (s : State) (r : RefId)
    (v : ObjId) :
    deref dead s r = some v ↔ mapGet s.refs r = some v ∧ v ∉ dead := by
  unfold deref
  cases hm : mapGet s.refs r with
  | none => simp
  | some t =>
    show (if t ∈ dead then none else some t) = some v ↔
      some t = some v ∧ v ∉ dead
    by_cases ht : t ∈ dead
    · rw [if_pos ht]
      constructor
      · intro h
        exact absurd h (by simp)
      · rintro ⟨h1, h2⟩
        exact absurd ((Option.some_injective _ h1) ▸ ht) h2
    · rw [if_neg ht]
      constructor
      · intro h
        exact ⟨h, (Option.some_injective _ h) ▸ ht⟩
      · rintro ⟨h1, _⟩
        exact h1

theorem WF_empty (dead : List ObjId) : WF dead empty := by
  constructor <;> simp [empty]

theorem refs_fresh_set {dead : List ObjId} {s : State} (hwf : WF dead s) :
    mapGet s.refs s.nextRef = none := by
  rw [mapGet_eq_none_iff]
  intro hm
  obtain ⟨p, hp, hfst⟩ := List.mem_map.1 hm
  exact absurd (hfst ▸ hwf.refsLt p hp) (Nat.lt_irrefl _)

theorem wv_fresh_set {dead : List ObjId} {s : State} (hwf : WF dead s) :
    s.nextRef ∉ s.wv :=
  fun hm => absurd (hwf.wvLt _ hm) (Nat.lt_irrefl _)

theorem add_eq_of_wmGet_some {dead : List ObjId} {s : State} {v : ObjId}
    {r : RefId} (h : wmGet dead s.vwv v = some r) : add dead s v = s := by
  unfold add
  rw [h]

theorem wv_add_of_none {dead : List ObjId} {s : State} {v : ObjId}
    (hwf : WF dead s) (hW : wmGet dead s.vwv v = none) :
    (add dead s v).wv = s.wv ++ [s.nextRef] := by
  unfold add
  rw [hW]
  show setAdd s.wv s.nextRef = s.wv ++ [s.nextRef]
  rw [setAdd, if_neg (wv_fresh_set hwf)]

theorem deref_add_of_mem {dead : List ObjId} {s : State} {v : ObjId}
    (hwf : WF dead s) (hW : wmGet dead s.vwv v = none) {r : RefId}
    (hr : r ∈ s.wv) : deref dead (add dead s v) r = deref dead s r := by
  obtain ⟨v', m1, _⟩ := hwf.wvLink r hr
  unfold add
  rw [hW]
  show deref dead
    ⟨mapSet s.vwv v s.nextRef, setAdd s.wv s.nextRef,
      s.refs ++ [(s.nextRef, v)],
      s.regs ++ [⟨v, s.nextRef, v, true⟩], s.nextRef + 1⟩ r = deref dead s r
  unfold deref
  show (match mapGet (s.refs ++ [(s.nextRef, v)]) r with
    | some t => if t ∈ dead then none else some t
    | none => none) =
    (match mapGet s.refs r with
    | some t => if t ∈ dead then none else some t
    | none => none)
  rw [mapGet_append_left _ m1, m1]

theorem deref_add_self {dead : List ObjId} {s : State} {v : ObjId}
    (hwf : WF dead s) (hW : wmGet dead s.vwv v = none) (hv : v ∉ dead) :
    deref dead (add dead s v) s.nextRef = some v := by
  unfold add
  rw [hW]
  show deref dead
    ⟨mapSet s.vwv v s.nextRef, setAdd s.wv s.nextRef,
      s.refs ++ [(s.nextRef, v)],
      s.regs ++ [⟨v, s.nextRef, v, true⟩], s.nextRef + 1⟩ s.nextRef = some v
  rw [deref_some_iff]
  constructor
  · show mapGet (s.refs ++ [(s.nextRef, v)]) s.nextRef = some v
    rw [mapGet_append_right _ (refs_fresh_set hwf)]
    simp [mapGet]
  · exact hv

/-- `add` preserves well-formedness. -/
theorem WF_add {dead : List ObjId} {s : State} (hwf : WF dead s)
    (v : ObjId) : WF dead (add dead s v) := by
  unfold add
  cases hW : wmGet dead s.vwv v with
  | some r => exact hwf
  | none =>
    have hfreshR := refs_fresh_set hwf
    have hwvfresh := wv_fresh_set hwf
    show WF dead
      ⟨mapSet s.vwv v s.nextRef, setAdd s.wv s.nextRef,
        s.refs ++ [(s.nextRef, v)],
        s.regs ++ [⟨v, s.nextRef, v, true⟩], s.nextRef + 1⟩
    constructor
    · show ((mapSet s.vwv v s.nextRef).map Prod.fst).Nodup
      cases hg : mapGet s.vwv v with
      | some r0 =>
        rw [map_fst_mapSet_of_get_some _ hg]
        exact hwf.vwvNodup
      | none =>
        rw [map_fst_mapSet_of_get_none _ hg, List.nodup_append]
        refine ⟨hwf.vwvNodup, by simp, ?_⟩
        intro x hx hb
        simp at hb
        subst hb
        exact (mapGet_eq_none_iff _ _).1 hg hx
    · intro p hp
      rcases mem_mapSet hp with h | h
      · exact Nat.lt_trans (hwf.vwvLt p h) (Nat.lt_succ_self _)
      · rw [h]
        exact Nat.lt_succ_self _
    · show (setAdd s.wv s.nextRef).Nodup
      rw [setAdd, if_neg hwvfresh, List.nodup_append]
      refine ⟨hwf.wvNodup, by simp, ?_⟩
      intro x hx hb
      simp at hb
      subst hb
      exact hwvfresh hx
    · intro r hr
      show r < s.nextRef + 1
      rw [setAdd, if_neg hwvfresh] at hr
      rcases List.mem_append.1 hr with h | h
      · exact Nat.lt_trans (hwf.wvLt r h) (Nat.lt_succ_self _)
      · simp at h
        rw [h]
        exact Nat.lt_succ_self _
    · intro p hp
      rcases List.mem_append.1 hp with h | h
      · exact Nat.lt_trans (hwf.refsLt p h) (Nat.lt_succ_self _)
      · simp at h
        rw [h]
        exact Nat.lt_succ_self _
    · show ((s.refs ++ [(s.nextRef, v)]).map Prod.fst).Nodup
      rw [List.map_append, List.nodup_append]
      refine ⟨hwf.refsNodup, by simp, ?_⟩
      intro x hx hb
      simp at hb
      subst hb
      obtain ⟨p, hp, hfst⟩ := List.mem_map.1 hx
      exact absurd (hfst ▸ hwf.refsLt p hp) (Nat.lt_irrefl _)
    · show ((s.regs ++ [(⟨v, s.nextRef, v, true⟩ : Reg)]).map Reg.held).Nodup
      rw [List.map_append, List.nodup_append]
      refine ⟨hwf.heldNodup, by simp, ?_⟩
      intro x hx hb
      simp at hb
      subst hb
      obtain ⟨c, hc, hfst⟩ := List.mem_map.1 hx
      exact absurd (hfst ▸ hwf.heldLt c hc) (Nat.lt_irrefl _)
    · intro c hc
      rcases List.mem_append.1 hc with h | h
      · exact Nat.lt_trans (hwf.heldLt c h) (Nat.lt_succ_self _)
      · simp at h
        rw [h]
        exact Nat.lt_succ_self _
    · intro p hp hpd
      rcases mem_mapSet hp with h | h
      · obtain ⟨m1, m2⟩ := hwf.vwvLink p h hpd
        constructor
        · show p.2 ∈ setAdd s.wv s.nextRef
          rw [setAdd, if_neg hwvfresh]
          exact List.mem_append.2 (Or.inl m1)
        · exact mapGet_append_left _ m2
      · rw [h]
        constructor
        · show s.nextRef ∈ setAdd s.wv s.nextRef
          rw [setAdd, if_neg hwvfresh]
          simp
        · show mapGet (s.refs ++ [(s.nextRef, v)]) s.nextRef = some v
          rw [mapGet_append_right _ hfreshR]
          simp [mapGet]
    · intro r hr
      show ∃ w, mapGet (s.refs ++ [(s.nextRef, v)]) r = some w ∧
        (w ∉ dead → mapGet (mapSet s.vwv v s.nextRef) w = some r)
      rw [setAdd, if_neg hwvfresh] at hr
      rcases List.mem_append.1 hr with h | h
      · obtain ⟨v', m1, m2⟩ := hwf.wvLink r h
        refine ⟨v', mapGet_append_left _ m1, ?_⟩
        intro hv'
        by_cases hvv : v' = v
        · subst hvv
          have hvg := m2 hv'
          rw [wmGet_of_not_dead hv', hvg] at hW
          exact absurd hW (by simp)
        · rw [mapGet_mapSet_ne _ _ hvv]
          exact m2 hv'
      · simp at h
        subst h
        refine ⟨v, ?_, ?_⟩
        · rw [mapGet_append_right _ hfreshR]
          simp [mapGet]
        · intro _
          exact mapGet_mapSet_self _ _ _
    · intro c hc hact
      rcases List.mem_append.1 hc with h | h
      · exact mapGet_append_left _ (hwf.regLink c h hact)
      · simp at h
        subst h
        show mapGet (s.refs ++ [(s.nextRef, v)]) s.nextRef = some v
        rw [mapGet_append_right _ hfreshR]
        simp [mapGet]

/-- `addAll` preserves well-formedness. -/
theorem WF_addAll {dead : List ObjId} (l : List ObjId) :
    ∀ {s : State}, WF dead s → WF dead (addAll dead s l) := by
  induction l with
  | nil =>
    intro s h
    exact h
  | cons x t ih =>
    intro s h
    simp only [addAll, List.foldl_cons] at *
    exact ih (WF_add h x)

theorem toList_alive {dead : List ObjId} {s : State} {x : ObjId}
    (hm : x ∈ toList dead s) : x ∉ dead := by
  obtain ⟨r, _, hd⟩ := List.mem_filterMap.1 hm
  exact ((deref_some_iff _ _ _ _).1 hd).2

/-- The iteration of a well-formed set lists each member once. -/
theorem toList_nodup {dead : List ObjId} {s : State} (hwf : WF dead s) :
    (toList dead s).Nodup := by
  refine nodup_filterMap hwf.wvNodup ?_
  intro r1 h1 r2 h2 c hc1 hc2
  obtain ⟨m1, hd1⟩ := (deref_some_iff _ _ _ _).1 hc1
  obtain ⟨m2, _⟩ := (deref_some_iff _ _ _ _).1 hc2
  obtain ⟨v1, n1, n2⟩ := hwf.wvLink r1 h1
  obtain ⟨v2, p1, p2⟩ := hwf.wvLink r2 h2
  have hv1 : v1 = c := by
    rw [n1] at m1
    exact Option.some_injective _ m1
  have hv2 : v2 = c := by
    rw [p1] at m2
    exact Option.some_injective _ m2
  have q1 := n2 (by rw [hv1]; exact hd1)
  have q2 := p2 (by rw [hv2]; exact hd1)
  rw [hv1] at q1
  rw [hv2] at q2
  rw [q1] at q2
  exact Option.some_injective _ q2

/-- A live object is reported by `has` exactly when iteration yields it. -/
theorem has_iff_mem_toList {dead : List ObjId} {s : State} (hwf : WF dead s)
    {v : ObjId} (hv : v ∉ dead) :
    has dead s v = true ↔ v ∈ toList dead s := by
  unfold has
  rw [wmGet_of_not_dead hv]
  constructor
  · intro h
    cases hg : mapGet s.vwv v with
    | none =>
      rw [hg] at h
      simp at h
    | some r =>
      obtain ⟨m1, m2⟩ := hwf.vwvLink (v, r) (mem_of_mapGet_eq_some hg) hv
      refine List.mem_filterMap.2 ⟨r, m1, ?_⟩
      rw [deref_some_iff]
      exact ⟨m2, hv⟩
  · intro h
    obtain ⟨r, hr, hd⟩ := List.mem_filterMap.1 h
    obtain ⟨m1, _⟩ := (deref_some_iff _ _ _ _).1 hd
    obtain ⟨v', n1, n2⟩ := hwf.wvLink r hr
    have hveq : v' = v := by
      rw [n1] at m1
      exact Option.some_injective _ m1
    have hg := n2 (by rw [hveq]; exact hv)
    rw [hveq] at hg
    rw [hg]
    simp

theorem has_empty (dead : List ObjId) (v : ObjId) :
    has dead empty v = false := by
  unfold has wmGet empty
  by_cases h : v ∈ dead
  · rw [if_pos h]
    rfl
  · rw [if_neg h]
    rfl

theorem has_add_ne {dead : List ObjId} {s : State} {x y : ObjId}
    (hne : y ≠ x) : has dead (add dead s x) y = has dead s y := by
  unfold add
  cases hW : wmGet dead s.vwv x with
  | some r => rfl
  | none =>
    show ((wmGet dead (mapSet s.vwv x s.nextRef) y).isSome : Bool) =
      (wmGet dead s.vwv y).isSome
    unfold wmGet
    by_cases hyd : y ∈ dead
    · rw [if_pos hyd, if_pos hyd]
    · rw [if_neg hyd, if_neg hyd, mapGet_mapSet_ne _ _ hne]

theorem toList_add_of_none {dead : List ObjId} {s : State} {v : ObjId}
    (hwf : WF dead s) (hv : v ∉ dead) (hW : wmGet dead s.vwv v = none) :
    toList dead (add dead s v) = toList dead s ++ [v] := by
  unfold toList
  rw [wv_add_of_none hwf hW, List.filterMap_append]
  congr 1
  · exact List.filterMap_congr (fun r hr => deref_add_of_mem hwf hW hr)
  · simp [List.filterMap_cons, deref_add_self hwf hW hv]

theorem length_filterMap_of_isSome {A C : Type} {f : A → Option C} :
    ∀ {l : List A}, (∀ x ∈ l, (f x).isSome) →
      (l.filterMap f).length = l.length := by
  intro l
  induction l with
  | nil => intro _; rfl
  | cons x t ih =>
    intro h
    have hx := h x (List.mem_cons_self _ _)
    cases hfx : f x with
    | none =>
      rw [hfx] at hx
      simp at hx
    | some c =>
      rw [List.filterMap_cons, hfx]
      simp only [List.length_cons]
      rw [ih (fun y hy => h y (List.mem_cons_of_mem _ hy))]

theorem size_eq_toList_length {dead : List ObjId} {s : State}
    (h : ∀ r ∈ s.wv, (deref dead s r).isSome) :
    size s = (toList dead s).length :=
  (length_filterMap_of_isSome h).symm

theorem allLive_add {dead : List ObjId} {s : State} {v : ObjId}
    (hwf : WF dead s) (hv : v ∉ dead)
    (h : ∀ r ∈ s.wv, (deref dead s r).isSome) :
    ∀ r ∈ (add dead s v).wv, (deref dead (add dead s v) r).isSome := by
  intro r hr
  cases hW : wmGet dead s.vwv v with
  | some r0 =>
    rw [add_eq_of_wmGet_some hW] at hr ⊢
    exact h r hr
  | none =>
    rw [wv_add_of_none hwf hW] at hr
    rcases List.mem_append.1 hr with hm | hm
    · rw [deref_add_of_mem hwf hW hm]
      exact h r hm
    · simp at hm
      subst hm
      rw [deref_add_self hwf hW hv]
      rfl

theorem allLive_addAll {dead : List ObjId} (l : List ObjId) :
    ∀ {s : State}, WF dead s → (∀ x ∈ l, x ∉ dead) →
      (∀ r ∈ s.wv, (deref dead s r).isSome) →
      ∀ r ∈ (addAll dead s l).wv, (deref dead (addAll dead s l) r).isSome := by
  induction l with
  | nil =>
    intro s _ _ h
    exact h
  | cons x t ih =>
    intro s hwf hal h
    simp only [addAll, List.foldl_cons] at *
    exact ih (WF_add hwf x) (fun y hy => hal y (List.mem_cons_of_mem _ hy))
      (allLive_add hwf (hal x (List.mem_cons_self _ _)) h)

/-- Folding `add` over a list of live values appends, in input order, exactly
those values not already present. -/
theorem toList_addAll {dead : List ObjId} (l : List ObjId) :
    ∀ {s : State}, WF dead s → (∀ x ∈ l, x ∉ dead) → l.Nodup →
      toList dead (addAll dead s l) =
        toList dead s ++ l.filter (fun x => !(has dead s x)) := by
  induction l with
  | nil =>
    intro s _ _ _
    simp [addAll]
  | cons x t ih =>
    intro s hwf hal hnd
    simp only [addAll, List.foldl_cons]
    have hx : x ∉ dead := hal x (List.mem_cons_self _ _)
    have hnd' := List.nodup_cons.1 hnd
    cases hW : wmGet dead s.vwv x with
    | some r =>
      have hhas : has dead s x = true := by
        unfold has
        rw [hW]
        rfl
      rw [add_eq_of_wmGet_some hW]
      have := ih hwf (fun y hy => hal y (List.mem_cons_of_mem _ hy)) hnd'.2
      simp only [addAll] at this
      rw [this, List.filter_cons]
      simp [hhas]
    | none =>
      have hhas : has dead s x = false := by
        unfold has
        rw [hW]
        rfl
      have h1 := toList_add_of_none hwf hx hW
      have h2 := ih (WF_add hwf x)
        (fun y hy => hal y (List.mem_cons_of_mem _ hy)) hnd'.2
      simp only [addAll] at h2
      rw [h2, h1]
      have hfe : t.filter (fun y => !(has dead (add dead s x) y)) =
          t.filter (fun y => !(has dead s y)) := by
        refine List.filter_congr ?_
        intro y hy
        have hne : y ≠ x := fun he => hnd'.1 (he ▸ hy)
        rw [has_add_ne hne]
      rw [hfe, List.filter_cons]
      simp [hhas]

end MeekSet

/-- Delivering a reclamation callback on a `MeekMap` whose enumeration set is
already empty leaves it empty: the callback only erases its held ref. -/
theorem MeekMap.fire_wk_of_nil {V : Type} {dead : List ObjId} {s : MeekMap.State V}
    {h : RefId} (hn : s.wk = []) : (MeekMap.fire dead s h).wk = [] := by
  unfold MeekMap.fire
  cases hf : s.regs.find?
      (fun r => r.held == h && r.active && dead.contains r.target) with
  | none => exact hn
  | some r => simp [hn]

/-! Liveness infrastructure for `MeekMap`. -/

namespace MeekMap

variable {V : Type}

theorem refs_fresh {s : State V} (hwf : WF s) :
    mapGet s.refs s.nextRef = none := by
  rw [mapGet_eq_none_iff]
  intro hm
  obtain ⟨p, hp, hfst⟩ := List.mem_map.1 hm
  exact absurd (hfst ▸ hwf.refsLt p hp) (Nat.lt_irrefl _)

/-- Delivering a reclamation callback touches only `wk` and the registry. -/
theorem fire_components (dead : List ObjId) (s : State V) (h : RefId) :
    (fire dead s h).kwk = s.kwk ∧ (fire dead s h).kv = s.kv ∧
    (fire dead s h).refs = s.refs ∧ (fire dead s h).nextRef = s.nextRef := by
  unfold fire
  cases hf : s.regs.find?
      (fun r => r.held == h && r.active && dead.contains r.target) with
  | none => exact ⟨rfl, rfl, rfl, rfl⟩
  | some r => exact ⟨rfl, rfl, rfl, rfl⟩

theorem WF_set_map {s : State V} (hwf : WF s) (dead : List ObjId)
    (k : ObjId) (v : V) : WF (set dead s k v) := by
  unfold set
  cases hW : wmGet dead s.kwk k with
  | some ref => exact ⟨hwf.refsLt, hwf.kwkLink⟩
  | none =>
    constructor
    · intro p hp
      rcases List.mem_append.1 hp with h | h
      · exact Nat.lt_trans (hwf.refsLt p h) (Nat.lt_succ_self _)
      · simp at h
        rw [h]
        exact Nat.lt_succ_self _
    · intro p hp
      rcases mem_mapSet hp with h | h
      · exact mapGet_append_left _ (hwf.kwkLink p h)
      · rw [h]
        show mapGet (s.refs ++ [(s.nextRef, k)]) s.nextRef = some k
        rw [mapGet_append_right _ (refs_fresh hwf)]
        simp [mapGet]

theorem WF_step_map {s : State V} (hwf : WF s) (dead : List ObjId)
    (op : Op V) : WF (step (s, dead) op).1 := by
  cases op with
  | setOp k v => exact WF_set_map hwf dead k v
  | delOp k =>
    show WF (delete dead s k).2
    unfold delete
    cases hW : wmGet dead s.kwk k with
    | some ref =>
      constructor
      · exact hwf.refsLt
      · intro p hp
        exact hwf.kwkLink p (mem_mapDelete hp)
    | none => exact hwf
  | clearOp =>
    show WF (clear s)
    constructor
    · exact hwf.refsLt
    · intro p hp
      exact absurd hp (by simp [clear])
  | fireOp h =>
    show WF (fire dead s h)
    obtain ⟨h1, h2, h3, h4⟩ := fire_components dead s h
    constructor
    · rw [h3, h4]
      exact hwf.refsLt
    · rw [h1, h3]
      exact hwf.kwkLink
  | killOp o => exact hwf

theorem get_of_inv {s : State V} {dead : List ObjId} {k : ObjId} {v : V}
    (hinv : entryInv s k v) (hk : k ∉ dead) : get dead s k = some v := by
  obtain ⟨r, h1, h2, h3⟩ := hinv
  unfold get
  rw [wmGet_of_not_dead hk, h1]
  show (match deref dead s r with
    | some key2 => wmGet dead s.kv key2
    | none => none) = some v
  unfold deref
  rw [h2]
  show (match (if k ∈ dead then none else some k) with
    | some key2 => wmGet dead s.kv key2
    | none => none) = some v
  rw [if_neg hk]
  show wmGet dead s.kv k = some v
  rw [wmGet_of_not_dead hk]
  exact h3

theorem inv_set_self {s : State V} (hwf : WF s) {dead : List ObjId}
    {k : ObjId} (hk : k ∉ dead) (v : V) :
    entryInv (set dead s k v) k v := by
  unfold set
  cases hW : wmGet dead s.kwk k with
  | some ref =>
    have hg : mapGet s.kwk k = some ref := by
      rw [← wmGet_of_not_dead hk]
      exact hW
    exact ⟨ref, hg, hwf.kwkLink (k, ref) (mem_of_mapGet_eq_some hg),
      mapGet_mapSet_self _ _ _⟩
  | none =>
    refine ⟨s.nextRef, mapGet_mapSet_self _ _ _, ?_, mapGet_mapSet_self _ _ _⟩
    show mapGet (s.refs ++ [(s.nextRef, k)]) s.nextRef = some k
    rw [mapGet_append_right _ (refs_fresh hwf)]
    simp [mapGet]

theorem inv_step_map {s : State V} {dead : List ObjId} {k : ObjId} {v : V}
    (hinv : entryInv s k v) (hk : k ∉ dead) (op : Op V)
    (hav : avoids k op = true) :
    entryInv (step (s, dead) op).1 k v ∧ k ∉ (step (s, dead) op).2 := by
  obtain ⟨r, h1, h2, h3⟩ := hinv
  cases op with
  | setOp k2 v2 =>
    have hne : k2 ≠ k := by simpa [avoids] using hav
    refine ⟨?_, hk⟩
    show entryInv (set dead s k2 v2) k v
    unfold set
    cases hW : wmGet dead s.kwk k2 with
    | some ref =>
      refine ⟨r, h1, h2, ?_⟩
      show mapGet (mapSet s.kv k2 v2) k = some v
      rw [mapGet_mapSet_ne _ _ (Ne.symm hne)]
      exact h3
    | none =>
      refine ⟨r, ?_, mapGet_append_left _ h2, ?_⟩
      · show mapGet (mapSet s.kwk k2 s.nextRef) k = some r
        rw [mapGet_mapSet_ne _ _ (Ne.symm hne)]
        exact h1
      · show mapGet (mapSet s.kv k2 v2) k = some v
        rw [mapGet_mapSet_ne _ _ (Ne.symm hne)]
        exact h3
  | delOp k2 =>
    have hne : k2 ≠ k := by simpa [avoids] using hav
    refine ⟨?_, hk⟩
    show entryInv (delete dead s k2).2 k v
    unfold delete
    cases hW : wmGet dead s.kwk k2 with
    | some ref =>
      refine ⟨r, ?_, h2, ?_⟩
      · show mapGet (mapDelete s.kwk k2) k = some r
        rw [mapGet_mapDelete_ne _ (Ne.symm hne)]
        exact h1
      · show mapGet (mapDelete s.kv k2) k = some v
        rw [mapGet_mapDelete_ne _ (Ne.symm hne)]
        exact h3
    | none => exact ⟨r, h1, h2, h3⟩
  | clearOp => simp [avoids] at hav
  | fireOp h =>
    show entryInv (fire dead s h) k v ∧ k ∉ dead
    obtain ⟨c1, c2, c3, _⟩ := fire_components dead s h
    refine ⟨⟨r, ?_, ?_, ?_⟩, hk⟩
    · rw [c1]
      exact h1
    · rw [c3]
      exact h2
    · rw [c2]
      exact h3
  | killOp o =>
    have hne : o ≠ k := by simpa [avoids] using hav
    refine ⟨⟨r, h1, h2, h3⟩, ?_⟩
    intro hm
    rcases List.mem_cons.1 hm with h | h
    · exact hne h.symm
    · exact hk h

theorem run_preserves {k : ObjId} {v : V} (ops : List (Op V)) :
    ∀ {s : State V} {dead : List ObjId}, WF s → entryInv s k v → k ∉ dead →
      (∀ op ∈ ops, avoids k op = true) →
      entryInv (run (s, dead) ops).1 k v ∧ k ∉ (run (s, dead) ops).2 := by
  induction ops with
  | nil =>
    intro s dead _ hinv hk _
    exact ⟨hinv, hk⟩
  | cons op t ih =>
    intro s dead hwf hinv hk hops
    simp only [run, List.foldl_cons] at *
    obtain ⟨hinv', hk'⟩ := inv_step_map hinv hk op
      (hops op (List.mem_cons_self _ _))
    exact ih (WF_step_map hwf dead op) hinv' hk'
      (fun o ho => hops o (List.mem_cons_of_mem _ ho))

end MeekMap

/-! Claim theorems. -/

/-- C9: inserting a primitive (non-weakable) referent throws at the point of
insertion — `new WeakRef` fails before any mutation — so `MeekSet.add`,
`MeekValueMap.set` and `MeekMap.set` all report the throw and leave the
container state exactly as it was. -/
theorem insert_fails_fast_on_primitive {K V : Type} [DecidableEq K]
    (dead : List ObjId) (sS : MeekSet.State) (sV : MeekValueMap.State K)
    (sM : MeekMap.State V) (k : K) (v : V) (n : Nat) :
    MeekSet.addChecked dead sS (.prim n) = (true, sS) ∧
    MeekValueMap.setChecked sV k (.prim n) = (true, sV) ∧
    MeekMap.setChecked dead sM (.prim n) v = (true, sM) :=
  ⟨rfl, rfl, rfl⟩

/-- C10: the read operations (`get`, `has`, `size`, and the iteration
surface) of all three containers are pure: run as state transformers exactly
as the code executes them, they return the container state unchanged — a
stale entry observed dead during a read is skipped or reported absent but
never deleted by the read. -/
theorem reads_never_mutate {K V : Type} [DecidableEq K]
    (dead : List ObjId) (sV : MeekValueMap.State K) (sS : MeekSet.State)
    (sM : MeekMap.State V) (k : K) (vS kM : ObjId) :
    (MeekValueMap.getR dead sV k).2 = sV ∧
    (MeekValueMap.hasR dead sV k).2 = sV ∧
    (MeekValueMap.toListR dead sV).2 = sV ∧
    (MeekValueMap.sizeR sV).2 = sV ∧
    (MeekSet.hasR dead sS vS).2 = sS ∧
    (MeekSet.toListR dead sS).2 = sS ∧
    (MeekSet.sizeR sS).2 = sS ∧
    (MeekMap.getR dead sM kM).2 = sM ∧
    (MeekMap.hasR dead sM kM).2 = sM ∧
    (MeekMap.keysListR dead sM).2 = sM :=
  ⟨rfl, rfl, rfl, rfl, rfl, rfl, rfl, rfl, rfl, rfl⟩

/-- C5: an index entry whose token is dead reads as absent even before its
reclamation callback fires: `MeekValueMap.get` returns `undefined`,
`MeekValueMap.has` returns false, and `MeekMap.has` returns false. -/
theorem dead_entries_read_absent {K V : Type} [DecidableEq K]
    (dead : List ObjId) (sV : MeekValueMap.State K) (k : K) (r : RefId)
    (t : ObjId) (hk : mapGet sV.kwv k = some r)
    (hr : mapGet sV.refs r = some t) (ht : t ∈ dead)
    (sM : MeekMap.State V) (kM : ObjId) (rM : RefId) (tM : ObjId)
    (hkM : kM ∉ dead) (hM1 : mapGet sM.kwk kM = some rM)
    (hM2 : mapGet sM.refs rM = some tM) (htM : tM ∈ dead) :
    MeekValueMap.get dead sV k = none ∧
    MeekValueMap.has dead sV k = false ∧
    MeekMap.has dead sM kM = false := by
  refine ⟨?_, ?_, ?_⟩
  · simp [MeekValueMap.get, MeekValueMap.deref, hk, hr, ht]
  · simp [MeekValueMap.has, MeekValueMap.get, MeekValueMap.deref, hk, hr, ht]
  · simp [MeekMap.has, MeekMap.deref, wmGet, hkM, hM1, hM2, htM]

/-- C5 witness: a concrete map with a dead value (resp. dead key referent)
reads as absent. -/
theorem dead_entries_read_absent_witness :
    MeekValueMap.get [5] (⟨[(0, 1)], [(1, 5)], [], 2⟩ : MeekValueMap.State Nat)
      0 = none ∧
    MeekValueMap.has [5] (⟨[(0, 1)], [(1, 5)], [], 2⟩ : MeekValueMap.State Nat)
      0 = false ∧
    MeekMap.has [5] (⟨[(0, 1)], [1], [(0, 9)], [(1, 5)], [], 2⟩ :
      MeekMap.State Nat) 0 = false :=
  dead_entries_read_absent [5] ⟨[(0, 1)], [(1, 5)], [], 2⟩ 0 1 5
    (by decide) (by decide) (by decide)
    ⟨[(0, 1)], [1], [(0, 9)], [(1, 5)], [], 2⟩ 0 1 5
    (by decide) (by decide) (by decide) (by decide)

/-- C2 counterexample: `MeekValueMap`'s reclamation callback is
`kwv.delete.bind(kwv)` with no token comparison.  In a state where key 0
currently holds token 5 (live target 11) and a stale registration for key 0
with token 1 (dead target 10) is still registered, delivering that stale
registration's callback removes the entry — `get` flips from `some 11` to
`none` — instead of being a no-op as the claim requires. -/
theorem valuemap_callback_unguarded_cex :
    MeekValueMap.get [10]
      (⟨[(0, 5)], [(1, 10), (5, 11)], [⟨10, 0, 1, true⟩], 6⟩ :
        MeekValueMap.State Nat) 0 = some 11 ∧
    MeekValueMap.get [10]
      (MeekValueMap.fire [10]
        (⟨[(0, 5)], [(1, 10), (5, 11)], [⟨10, 0, 1, true⟩], 6⟩ :
          MeekValueMap.State Nat) 1) 0 = none := by
  decide

/-- C2 (amended): the token guard exists only on the enumeration-set
flavors.  `MeekSet`'s (and `MeekMap`'s, which shares the same callback
shape) reclamation callback erases only its own held ref, so firing a
registration whose ref is no longer the entry's current one leaves the
index and enumeration surface unchanged.  `MeekValueMap`'s callback deletes
its key unconditionally; there the clobbering protection is instead that
`set` detaches (unregisters) the replaced token's registration, so every
registration carrying the overwritten token is inactive and can never
fire. -/
theorem reclamation_callback_guard_amended {K : Type} [DecidableEq K]
    (dead : List ObjId) (sS : MeekSet.State) (h : RefId) (hnm : h ∉ sS.wv)
    (sV : MeekValueMap.State K) (k : K) (v : ObjId) (old : RefId)
    (hold : mapGet sV.kwv k = some old) (hlt : old < sV.nextRef) :
    ((MeekSet.fire dead sS h).wv = sS.wv ∧
      (MeekSet.fire dead sS h).vwv = sS.vwv) ∧
    (∀ r ∈ (MeekValueMap.set sV k v).regs, r.token = old → r.active = false) := by
  refine ⟨MeekSet.fire_wv_vwv_of_not_mem hnm, ?_⟩
  intro r hr htok
  simp only [MeekValueMap.set, hold] at hr
  rcases List.mem_append.1 hr with hmem | hmem
  · exact MeekValueMap.inactive_of_mem_unregister hmem htok
  · simp at hmem
    rw [hmem] at htok
    simp at htok
    exact absurd htok (Nat.ne_of_gt hlt)

/-- C2 amended witness: a concrete stale set firing is inert, and a concrete
valuemap overwrite deactivates the replaced token's registration. -/
theorem reclamation_callback_guard_amended_witness :
    ((MeekSet.fire [9] (⟨[(7, 0)], [1], [(0, 7), (1, 8)], [⟨9, 0, 9, true⟩], 2⟩ :
        MeekSet.State) 0).wv =
      (⟨[(7, 0)], [1], [(0, 7), (1, 8)], [⟨9, 0, 9, true⟩], 2⟩ :
        MeekSet.State).wv ∧
     (MeekSet.fire [9] (⟨[(7, 0)], [1], [(0, 7), (1, 8)], [⟨9, 0, 9, true⟩], 2⟩ :
        MeekSet.State) 0).vwv =
      (⟨[(7, 0)], [1], [(0, 7), (1, 8)], [⟨9, 0, 9, true⟩], 2⟩ :
        MeekSet.State).vwv) ∧
    (∀ r ∈ (MeekValueMap.set
        (⟨[(0, 1)], [(1, 5)], [⟨5, 0, 1, true⟩], 2⟩ : MeekValueMap.State Nat)
        0 6).regs, r.token = 1 → r.active = false) :=
  reclamation_callback_guard_amended [9]
    ⟨[(7, 0)], [1], [(0, 7), (1, 8)], [⟨9, 0, 9, true⟩], 2⟩ 0 (by decide)
    ⟨[(0, 1)], [(1, 5)], [⟨5, 0, 1, true⟩], 2⟩ 0 6 1 (by decide) (by decide)

/-- C3 counterexample: `MeekSet.clear` does not detach the reclamation
registrations of the entries present at the time of the call: after
`add 7` then `clear`, the registration created for 7 is still active (the
registry is untouched by `clear`). -/
theorem clear_leaves_registrations_cex :
    ((MeekSet.clear (MeekSet.add [] MeekSet.empty 7)).regs.filter
      (fun r => r.active)).length = 1 ∧
    (MeekSet.clear (MeekSet.add [] MeekSet.empty 7)).regs =
      (MeekSet.add [] MeekSet.empty 7).regs := by
  decide

/-- C3 (amended): `clear()` empties the index and enumeration surface of all
three containers (size becomes 0).  `MeekValueMap.clear` also detaches every
current registration, so no callback can fire on it afterwards.
`MeekSet.clear` and `MeekMap.clear` leave registrations attached, but a
reclamation callback that later fires for a token created before the
`clear()` is inert: even after arbitrary further insertions its firing
leaves the index and enumeration surface unchanged, because the callback
erases only its own pre-`clear` ref, which can never re-enter the cleared
enumeration set. -/
theorem clear_semantics_amended {K V : Type} [DecidableEq K]
    (sV : MeekValueMap.State K) (hwfV : MeekValueMap.WF sV)
    (deadV : List ObjId) (tokV : RefId)
    (sS : MeekSet.State) (deadS : List ObjId) (h : RefId)
    (hlt : h < sS.nextRef) (l : List ObjId)
    (sM : MeekMap.State V) (deadM : List ObjId) (hM : RefId) :
    (MeekValueMap.clear sV).kwv = [] ∧
    MeekValueMap.size (MeekValueMap.clear sV) = 0 ∧
    (∀ r ∈ (MeekValueMap.clear sV).regs, r.active = false) ∧
    MeekValueMap.fire deadV (MeekValueMap.clear sV) tokV =
      MeekValueMap.clear sV ∧
    (MeekSet.clear sS).wv = [] ∧ (MeekSet.clear sS).vwv = [] ∧
    MeekSet.size (MeekSet.clear sS) = 0 ∧
    (MeekSet.fire deadS (MeekSet.addAll deadS (MeekSet.clear sS) l) h).wv =
      (MeekSet.addAll deadS (MeekSet.clear sS) l).wv ∧
    (MeekSet.fire deadS (MeekSet.addAll deadS (MeekSet.clear sS) l) h).vwv =
      (MeekSet.addAll deadS (MeekSet.clear sS) l).vwv ∧
    (MeekMap.clear sM).wk = [] ∧ (MeekMap.clear sM).kwk = [] ∧
    (MeekMap.clear sM).kv = [] ∧ MeekMap.size (MeekMap.clear sM) = 0 ∧
    (MeekMap.fire deadM (MeekMap.clear sM) hM).wk = [] := by
  have hnm : h ∉ (MeekSet.addAll deadS (MeekSet.clear sS) l).wv := fun hmem =>
    absurd (MeekSet.mem_wv_addAll_clear hmem) (Nat.not_le.2 hlt)
  obtain ⟨hw, hv⟩ := MeekSet.fire_wv_vwv_of_not_mem hnm
  exact ⟨rfl, rfl, MeekValueMap.clear_all_inactive hwfV,
    MeekValueMap.fire_clear_eq hwfV _ _, rfl, rfl, rfl, hw, hv,
    rfl, rfl, rfl, rfl, MeekMap.fire_wk_of_nil rfl⟩

/-- C3 amended witness: concrete instances of the amended clear semantics. -/
theorem clear_semantics_amended_witness :
    (MeekValueMap.clear (⟨[(0, 1)], [(1, 5)], [⟨5, 0, 1, true⟩], 2⟩ :
      MeekValueMap.State Nat)).kwv = [] ∧
    MeekValueMap.size (MeekValueMap.clear
      (⟨[(0, 1)], [(1, 5)], [⟨5, 0, 1, true⟩], 2⟩ :
        MeekValueMap.State Nat)) = 0 ∧
    (∀ r ∈ (MeekValueMap.clear (⟨[(0, 1)], [(1, 5)], [⟨5, 0, 1, true⟩], 2⟩ :
      MeekValueMap.State Nat)).regs, r.active = false) ∧
    MeekValueMap.fire [5] (MeekValueMap.clear
      (⟨[(0, 1)], [(1, 5)], [⟨5, 0, 1, true⟩], 2⟩ :
        MeekValueMap.State Nat)) 1 =
      MeekValueMap.clear (⟨[(0, 1)], [(1, 5)], [⟨5, 0, 1, true⟩], 2⟩ :
        MeekValueMap.State Nat) ∧
    (MeekSet.clear (MeekSet.add [] MeekSet.empty 7)).wv = [] ∧
    (MeekSet.clear (MeekSet.add [] MeekSet.empty 7)).vwv = [] ∧
    MeekSet.size (MeekSet.clear (MeekSet.add [] MeekSet.empty 7)) = 0 ∧
    (MeekSet.fire [7] (MeekSet.addAll []
        (MeekSet.clear (MeekSet.add [] MeekSet.empty 7)) [8]) 0).wv =
      (MeekSet.addAll []
        (MeekSet.clear (MeekSet.add [] MeekSet.empty 7)) [8]).wv ∧
    (MeekSet.fire [7] (MeekSet.addAll []
        (MeekSet.clear (MeekSet.add [] MeekSet.empty 7)) [8]) 0).vwv =
      (MeekSet.addAll []
        (MeekSet.clear (MeekSet.add [] MeekSet.empty 7)) [8]).vwv ∧
    (MeekMap.clear (MeekMap.empty (V := Nat))).wk = [] ∧
    (MeekMap.clear (MeekMap.empty (V := Nat))).kwk = [] ∧
    (MeekMap.clear (MeekMap.empty (V := Nat))).kv = [] ∧
    MeekMap.size (MeekMap.clear (MeekMap.empty (V := Nat))) = 0 ∧
    (MeekMap.fire [] (MeekMap.clear (MeekMap.empty (V := Nat))) 0).wk = [] :=
  clear_semantics_amended ⟨[(0, 1)], [(1, 5)], [⟨5, 0, 1, true⟩], 2⟩
    (by constructor <;> decide) [5] 1
    (MeekSet.add [] MeekSet.empty 7) [7] 0 (by decide) [8]
    MeekMap.empty [] 0

/-- C1: no clobbering in `MeekValueMap`: starting from any well-formed map,
insert `key -> A`, let `A` be reclaimed (all external references dropped),
insert `key -> B` before `A`'s reclamation callback fires, then deliver any
sequence of reclamation callbacks (covering `A`'s registration and any
others): `get key` still returns `B` — never absent and never `A`.  The
overwrite detached `A`'s registration, so its delivery is inert. -/
theorem valuemap_no_clobbering {K : Type} [DecidableEq K]
    (s0 : MeekValueMap.State K) (dead0 : List ObjId) (k : K) (A B : ObjId)
    (toks : List RefId) (hwf : MeekValueMap.WF s0)
    (hA : A ∉ dead0) (hB : B ∉ dead0) (hBA : B ≠ A) :
    MeekValueMap.get (A :: dead0)
      (MeekValueMap.fireMany (A :: dead0)
        (MeekValueMap.set (MeekValueMap.set s0 k A) k B) toks) k = some B := by
  have hwf1 := MeekValueMap.WF_set hwf k A
  have hwf2 := MeekValueMap.WF_set hwf1 k B
  have hB1 : B ∉ A :: dead0 := by
    intro hm
    rcases List.mem_cons.1 hm with h | h
    · exact hBA h
    · exact hB h
  exact MeekValueMap.get_fireMany hB1 toks hwf2
    (MeekValueMap.get_set_self hwf1 k hB1)

/-- C1 witness: the scenario at key 0 with objects A = 1, B = 2, delivering
the tokens of both registrations. -/
theorem valuemap_no_clobbering_witness :
    MeekValueMap.get [1]
      (MeekValueMap.fireMany [1]
        (MeekValueMap.set
          (MeekValueMap.set (MeekValueMap.empty (K := Nat)) 0 1) 0 2)
        [0, 1]) 0 = some 2 :=
  valuemap_no_clobbering MeekValueMap.empty [] 0 1 2 [0, 1]
    (by constructor <;> decide) (by decide) (by decide) (by decide)

/-- C6: liveness of `MeekMap` lookup: starting from any well-formed map state
with key `k` alive, after `set k v` and then any sequence of events — sets
and deletes of other keys, reclamation-callback deliveries, reclamations of
other objects — that contains no `delete k`, no `clear`, no overwrite of
`k`, and no reclamation of `k` itself (the caller keeps `k` strongly
reachable), `get k` still returns `v`. -/
theorem meekmap_liveness {V : Type} (s0 : MeekMap.State V)
    (dead0 : List ObjId) (k : ObjId) (v : V) (ops : List (MeekMap.Op V))
    (hwf : MeekMap.WF s0) (hk : k ∉ dead0)
    (hops : ∀ op ∈ ops, MeekMap.avoids k op = true) :
    MeekMap.get (MeekMap.run (MeekMap.set dead0 s0 k v, dead0) ops).2
      (MeekMap.run (MeekMap.set dead0 s0 k v, dead0) ops).1 k = some v := by
  obtain ⟨hinv, hk'⟩ := MeekMap.run_preserves ops
    (MeekMap.WF_set_map hwf dead0 k v) (MeekMap.inv_set_self hwf hk v) hk hops
  exact MeekMap.get_of_inv hinv hk'

/-- C6 witness: a concrete run — set key 0 to 42, then set another key,
reclaim that key, deliver its callback, delete it, and set a third key —
after which `get 0` still returns 42. -/
theorem meekmap_liveness_witness :
    MeekMap.get
      (MeekMap.run (MeekMap.set [] (MeekMap.empty (V := Nat)) 0 42, [])
        [.setOp 5 7, .killOp 5, .fireOp 1, .delOp 5, .setOp 6 8]).2
      (MeekMap.run (MeekMap.set [] (MeekMap.empty (V := Nat)) 0 42, [])
        [.setOp 5 7, .killOp 5, .fireOp 1, .delOp 5, .setOp 6 8]).1
      0 = some 42 :=
  meekmap_liveness MeekMap.empty [] 0 42
    [.setOp 5 7, .killOp 5, .fireOp 1, .delOp 5, .setOp 6 8]
    (by constructor <;> decide) (by decide) (by decide)

/-- C7: iteration order of `MeekSet`: inserting `k1, k2, k3` in that order
and iterating yields `k1, k2, k3`; re-adding a key whose entry is still
live is a no-op that keeps its position; deleting `k2` and re-inserting it
yields `k1, k3, k2` (deletion removes its ref from the ordered enumeration
set and re-insertion appends a fresh ref at the end). -/
theorem iteration_order (dead : List ObjId) (k1 k2 k3 : ObjId)
    (h12 : k1 ≠ k2) (h13 : k1 ≠ k3) (h23 : k2 ≠ k3)
    (d1 : k1 ∉ dead) (d2 : k2 ∉ dead) (d3 : k3 ∉ dead) :
    MeekSet.toList dead (MeekSet.addAll dead MeekSet.empty [k1, k2, k3]) =
      [k1, k2, k3] ∧
    MeekSet.add dead (MeekSet.addAll dead MeekSet.empty [k1, k2, k3]) k1 =
      MeekSet.addAll dead MeekSet.empty [k1, k2, k3] ∧
    MeekSet.toList dead (MeekSet.add dead
      (MeekSet.delete dead
        (MeekSet.addAll dead MeekSet.empty [k1, k2, k3]) k2).2 k2) =
      [k1, k3, k2] := by
  have e1 : MeekSet.addAll dead MeekSet.empty [k1, k2, k3] =
      ⟨[(k1, 0), (k2, 1), (k3, 2)], [0, 1, 2],
        [(0, k1), (1, k2), (2, k3)],
        [⟨k1, 0, k1, true⟩, ⟨k2, 1, k2, true⟩, ⟨k3, 2, k3, true⟩], 3⟩ := by
    simp [MeekSet.addAll, MeekSet.add, MeekSet.empty, wmGet, mapGet, mapSet,
      setAdd, d1, d2, d3, h12, h13, h23, Ne.symm h12, Ne.symm h13, Ne.symm h23]
  refine ⟨?_, ?_, ?_⟩
  · rw [e1]
    simp [MeekSet.toList, MeekSet.deref, mapGet, d1, d2, d3,
      Ne.symm h12, Ne.symm h13, Ne.symm h23]
  · rw [e1]
    simp [MeekSet.add, wmGet, mapGet, d1, h12, h13]
  · rw [e1]
    have e2 : MeekSet.delete dead
        (⟨[(k1, 0), (k2, 1), (k3, 2)], [0, 1, 2],
          [(0, k1), (1, k2), (2, k3)],
          [⟨k1, 0, k1, true⟩, ⟨k2, 1, k2, true⟩, ⟨k3, 2, k3, true⟩], 3⟩ :
          MeekSet.State) k2 =
        (true, ⟨[(k1, 0), (k3, 2)], [0, 2],
          [(0, k1), (1, k2), (2, k3)],
          [⟨k1, 0, k1, true⟩, ⟨k2, 1, k2, false⟩, ⟨k3, 2, k3, true⟩], 3⟩) := by
      simp [MeekSet.delete, wmGet, mapGet, mapDelete, MeekSet.unregister,
        List.erase, d2, h12, h23, Ne.symm h12, Ne.symm h23]
    rw [e2]
    simp [MeekSet.add, wmGet, mapGet, mapSet, setAdd, MeekSet.toList,
      MeekSet.deref, d1, d2, d3, h12, h13, h23,
      Ne.symm h12, Ne.symm h13, Ne.symm h23]

/-- C7 witness: the iteration-order scenario at keys 1, 2, 3 with nothing
dead. -/
theorem iteration_order_witness :
    MeekSet.toList [] (MeekSet.addAll [] MeekSet.empty [1, 2, 3]) =
      [1, 2, 3] ∧
    MeekSet.add [] (MeekSet.addAll [] MeekSet.empty [1, 2, 3]) 1 =
      MeekSet.addAll [] MeekSet.empty [1, 2, 3] ∧
    MeekSet.toList [] (MeekSet.add []
      (MeekSet.delete []
        (MeekSet.addAll [] MeekSet.empty [1, 2, 3]) 2).2 2) =
      [1, 3, 2] :=
  iteration_order [] 1 2 3 (by decide) (by decide) (by decide)
    (by decide) (by decide) (by decide)

/-- C8: set algebra on `MeekSet`: for finite well-formed sets A and B whose
entries are all live, `A.union(B).size = A.size + B.difference(A).size`, and
`A.intersection(A)` enumerates exactly A's live members.  The operations are
pure: each builds its result from a `new MeekSet()` and reads the operands
only through their live iteration (`keys`) and `has`. -/
theorem set_algebra (dead : List ObjId) (a b : MeekSet.State)
    (hwfa : MeekSet.WF dead a) (hwfb : MeekSet.WF dead b)
    (hla : ∀ r ∈ a.wv, (MeekSet.deref dead a r).isSome)
    (hlb : ∀ r ∈ b.wv, (MeekSet.deref dead b r).isSome) :
    MeekSet.size (MeekSet.union dead a b) =
      MeekSet.size a + MeekSet.size (MeekSet.difference dead b a) ∧
    MeekSet.toList dead (MeekSet.intersection dead a a) =
      MeekSet.toList dead a := by
  have haliveA : ∀ x ∈ MeekSet.toList dead a, x ∉ dead :=
    fun x hx => MeekSet.toList_alive hx
  have haliveB : ∀ x ∈ MeekSet.toList dead b, x ∉ dead :=
    fun x hx => MeekSet.toList_alive hx
  have hndA := MeekSet.toList_nodup hwfa
  have hndB := MeekSet.toList_nodup hwfb
  have hwfE := MeekSet.WF_empty dead
  have hallE : ∀ r ∈ (MeekSet.empty).wv,
      (MeekSet.deref dead MeekSet.empty r).isSome := by
    intro r hr
    exact absurd hr (by simp [MeekSet.empty])
  have eA : MeekSet.toList dead
      (MeekSet.addAll dead MeekSet.empty (MeekSet.toList dead a)) =
      MeekSet.toList dead a := by
    rw [MeekSet.toList_addAll _ hwfE haliveA hndA]
    have hfa : (MeekSet.toList dead a).filter
        (fun x => !(MeekSet.has dead MeekSet.empty x)) =
        MeekSet.toList dead a := by
      rw [List.filter_eq_self]
      intro x _
      rw [MeekSet.has_empty]
      rfl
    rw [hfa]
    rfl
  have hWFA' := MeekSet.WF_addAll (MeekSet.toList dead a) hwfE
  have hallA' := MeekSet.allLive_addAll (MeekSet.toList dead a) hwfE
    haliveA hallE
  have hhasA : ∀ y, y ∉ dead →
      MeekSet.has dead
        (MeekSet.addAll dead MeekSet.empty (MeekSet.toList dead a)) y =
      MeekSet.has dead a y := by
    intro y hy
    have h1 := MeekSet.has_iff_mem_toList hWFA' hy
    rw [eA] at h1
    exact bool_eq_of_true_iff
      (h1.trans (MeekSet.has_iff_mem_toList hwfa hy).symm)
  have eU : MeekSet.toList dead (MeekSet.union dead a b) =
      MeekSet.toList dead a ++
        (MeekSet.toList dead b).filter
          (fun x => !(MeekSet.has dead a x)) := by
    show MeekSet.toList dead
      (MeekSet.addAll dead
        (MeekSet.addAll dead MeekSet.empty (MeekSet.toList dead a))
        (MeekSet.toList dead b)) = _
    rw [MeekSet.toList_addAll _ hWFA' haliveB hndB, eA]
    congr 1
    refine List.filter_congr ?_
    intro y hy
    rw [hhasA y (haliveB y hy)]
  have hallU : ∀ r ∈ (MeekSet.union dead a b).wv,
      (MeekSet.deref dead (MeekSet.union dead a b) r).isSome :=
    MeekSet.allLive_addAll (MeekSet.toList dead b) hWFA' haliveB hallA'
  have s1 := MeekSet.size_eq_toList_length hallU
  have hndBf : ((MeekSet.toList dead b).filter
      (fun v => !(MeekSet.has dead a v))).Nodup := hndB.filter _
  have haliveBf : ∀ x ∈ (MeekSet.toList dead b).filter
      (fun v => !(MeekSet.has dead a v)), x ∉ dead :=
    fun x hx => haliveB x (List.mem_of_mem_filter hx)
  have eD : MeekSet.toList dead (MeekSet.difference dead b a) =
      (MeekSet.toList dead b).filter (fun v => !(MeekSet.has dead a v)) := by
    show MeekSet.toList dead (MeekSet.addAll dead MeekSet.empty _) = _
    rw [MeekSet.toList_addAll _ hwfE haliveBf hndBf]
    have hfb : ((MeekSet.toList dead b).filter
        (fun v => !(MeekSet.has dead a v))).filter
        (fun x => !(MeekSet.has dead MeekSet.empty x)) =
        (MeekSet.toList dead b).filter
          (fun v => !(MeekSet.has dead a v)) := by
      rw [List.filter_eq_self]
      intro x _
      rw [MeekSet.has_empty]
      rfl
    rw [hfb]
    rfl
  have hallD : ∀ r ∈ (MeekSet.difference dead b a).wv,
      (MeekSet.deref dead (MeekSet.difference dead b a) r).isSome :=
    MeekSet.allLive_addAll _ hwfE haliveBf hallE
  have s2 := MeekSet.size_eq_toList_length hallD
  have s3 := MeekSet.size_eq_toList_length hla
  constructor
  · rw [s1, eU, List.length_append, s3, s2, eD]
  · show MeekSet.toList dead
      (MeekSet.addAll dead MeekSet.empty
        ((MeekSet.toList dead a).filter
          (fun v => MeekSet.has dead a v))) = MeekSet.toList dead a
    have hfs : (MeekSet.toList dead a).filter
        (fun v => MeekSet.has dead a v) = MeekSet.toList dead a := by
      rw [List.filter_eq_self]
      intro x hx
      exact (MeekSet.has_iff_mem_toList hwfa (haliveA x hx)).2 hx
    rw [hfs]
    exact eA

/-- C8 witness: the algebra identities at A = {1, 2, 3}, B = {2, 4}. -/
theorem set_algebra_witness :
    MeekSet.size (MeekSet.union []
        (MeekSet.addAll [] MeekSet.empty [1, 2, 3])
        (MeekSet.addAll [] MeekSet.empty [2, 4])) =
      MeekSet.size (MeekSet.addAll [] MeekSet.empty [1, 2, 3]) +
        MeekSet.size (MeekSet.difference []
          (MeekSet.addAll [] MeekSet.empty [2, 4])
          (MeekSet.addAll [] MeekSet.empty [1, 2, 3])) ∧
    MeekSet.toList [] (MeekSet.intersection []
        (MeekSet.addAll [] MeekSet.empty [1, 2, 3])
        (MeekSet.addAll [] MeekSet.empty [1, 2, 3])) =
      MeekSet.toList [] (MeekSet.addAll [] MeekSet.empty [1, 2, 3]) :=
  set_algebra [] (MeekSet.addAll [] MeekSet.empty [1, 2, 3])
    (MeekSet.addAll [] MeekSet.empty [2, 4])
    (by constructor <;> decide) (by constructor <;> decide)
    (by decide) (by decide)

/-- C4: `delete` semantics on `MeekValueMap` and `MeekSet`: when an entry
exists, `delete` detaches its reclamation registration, removes it from the
index and enumeration surface, and returns true, and an immediately repeated
delete returns false; when no entry exists, `delete` returns false and the
state (hence `size`) is unchanged. -/
theorem delete_semantics {K : Type} [DecidableEq K]
    (s1 : MeekValueMap.State K) (k1 : K) (r1 : RefId)
    (hnd1 : (s1.kwv.map Prod.fst).Nodup)
    (hget1 : mapGet s1.kwv k1 = some r1)
    (s2 : MeekValueMap.State K) (k2 : K)
    (hget2 : mapGet s2.kwv k2 = none)
    (dead : List ObjId) (t1 : MeekSet.State) (v1 : ObjId) (rs1 : RefId)
    (hv1 : v1 ∉ dead) (hndS : (t1.vwv.map Prod.fst).Nodup)
    (hwvS : t1.wv.Nodup) (hgetS : mapGet t1.vwv v1 = some rs1)
    (hmemS : rs1 ∈ t1.wv)
    (t2 : MeekSet.State) (v2 : ObjId) (hv2 : v2 ∉ dead)
    (hgetS2 : mapGet t2.vwv v2 = none) :
    (MeekValueMap.delete s1 k1).1 = true ∧
    mapGet (MeekValueMap.delete s1 k1).2.kwv k1 = none ∧
    MeekValueMap.size (MeekValueMap.delete s1 k1).2 + 1 =
      MeekValueMap.size s1 ∧
    (∀ r ∈ (MeekValueMap.delete s1 k1).2.regs, r.token = r1 →
      r.active = false) ∧
    (MeekValueMap.delete (MeekValueMap.delete s1 k1).2 k1).1 = false ∧
    MeekValueMap.delete s2 k2 = (false, s2) ∧
    (MeekSet.delete dead t1 v1).1 = true ∧
    MeekSet.has dead (MeekSet.delete dead t1 v1).2 v1 = false ∧
    rs1 ∉ (MeekSet.delete dead t1 v1).2.wv ∧
    MeekSet.size (MeekSet.delete dead t1 v1).2 + 1 = MeekSet.size t1 ∧
    (∀ r ∈ (MeekSet.delete dead t1 v1).2.regs, r.token = v1 →
      r.active = false) ∧
    (MeekSet.delete dead (MeekSet.delete dead t1 v1).2 v1).1 = false ∧
    MeekSet.delete dead t2 v2 = (false, t2) := by
  have hwget1 : wmGet dead t1.vwv v1 = some rs1 := by
    rw [wmGet_of_not_dead hv1, hgetS]
  have hwget2 : wmGet dead t2.vwv v2 = none := by
    rw [wmGet_of_not_dead hv2, hgetS2]
  refine ⟨?_, ?_, ?_, ?_, ?_, ?_, ?_, ?_, ?_, ?_, ?_, ?_, ?_⟩
  · simp [MeekValueMap.delete, hget1]
  · simp [MeekValueMap.delete, hget1, mapGet_mapDelete_self _ _ hnd1]
  · simp only [MeekValueMap.delete, hget1, MeekValueMap.size]
    exact length_mapDelete_of_get_some hget1
  · intro r hr htok
    simp only [MeekValueMap.delete, hget1] at hr
    exact MeekValueMap.inactive_of_mem_unregister hr htok
  · simp [MeekValueMap.delete, hget1, mapGet_mapDelete_self _ _ hnd1]
  · simp [MeekValueMap.delete, hget2]
  · simp [MeekSet.delete, hwget1]
    exact hmemS
  · simp [MeekSet.delete, hwget1, MeekSet.has, wmGet_of_not_dead hv1,
      mapGet_mapDelete_self _ _ hndS]
  · simp only [MeekSet.delete, hwget1]
    exact hwvS.not_mem_erase
  · simp only [MeekSet.delete, hwget1, MeekSet.size]
    exact List.length_erase_add_one hmemS
  · intro r hr htok
    simp only [MeekSet.delete, hwget1] at hr
    obtain ⟨c, hc, heq⟩ := List.mem_map.1 hr
    by_cases hct : c.token = v1
    · rw [if_pos hct] at heq
      rw [← heq]
    · rw [if_neg hct] at heq
      rw [← heq] at htok
      exact absurd htok hct
  · have hun : wmGet dead (MeekSet.delete dead t1 v1).2.vwv v1 = none := by
      simp [MeekSet.delete, hwget1, wmGet_of_not_dead hv1,
        mapGet_mapDelete_self _ _ hndS]
    rw [MeekSet.delete_eq_of_wmGet_none hun]
  · exact MeekSet.delete_eq_of_wmGet_none hwget2

/-- C4 witness: concrete delete semantics on a one-entry valuemap and set. -/
theorem delete_semantics_witness :
    (MeekValueMap.delete (⟨[(0, 1)], [(1, 5)], [⟨5, 0, 1, true⟩], 2⟩ :
      MeekValueMap.State Nat) 0).1 = true ∧
    mapGet (MeekValueMap.delete (⟨[(0, 1)], [(1, 5)], [⟨5, 0, 1, true⟩], 2⟩ :
      MeekValueMap.State Nat) 0).2.kwv 0 = none ∧
    MeekValueMap.size (MeekValueMap.delete
      (⟨[(0, 1)], [(1, 5)], [⟨5, 0, 1, true⟩], 2⟩ :
        MeekValueMap.State Nat) 0).2 + 1 =
      MeekValueMap.size (⟨[(0, 1)], [(1, 5)], [⟨5, 0, 1, true⟩], 2⟩ :
        MeekValueMap.State Nat) ∧
    (∀ r ∈ (MeekValueMap.delete (⟨[(0, 1)], [(1, 5)], [⟨5, 0, 1, true⟩], 2⟩ :
      MeekValueMap.State Nat) 0).2.regs, r.token = 1 → r.active = false) ∧
    (MeekValueMap.delete (MeekValueMap.delete
      (⟨[(0, 1)], [(1, 5)], [⟨5, 0, 1, true⟩], 2⟩ :
        MeekValueMap.State Nat) 0).2 0).1 = false ∧
    MeekValueMap.delete (⟨[(0, 1)], [(1, 5)], [⟨5, 0, 1, true⟩], 2⟩ :
      MeekValueMap.State Nat) 3 =
      (false, ⟨[(0, 1)], [(1, 5)], [⟨5, 0, 1, true⟩], 2⟩) ∧
    (MeekSet.delete [] (MeekSet.add [] MeekSet.empty 7) 7).1 = true ∧
    MeekSet.has [] (MeekSet.delete [] (MeekSet.add [] MeekSet.empty 7) 7).2
      7 = false ∧
    0 ∉ (MeekSet.delete [] (MeekSet.add [] MeekSet.empty 7) 7).2.wv ∧
    MeekSet.size (MeekSet.delete [] (MeekSet.add [] MeekSet.empty 7) 7).2 + 1 =
      MeekSet.size (MeekSet.add [] MeekSet.empty 7) ∧
    (∀ r ∈ (MeekSet.delete [] (MeekSet.add [] MeekSet.empty 7) 7).2.regs,
      r.token = 7 → r.active = false) ∧
    (MeekSet.delete []
      (MeekSet.delete [] (MeekSet.add [] MeekSet.empty 7) 7).2 7).1 = false ∧
    MeekSet.delete [] (MeekSet.add [] MeekSet.empty 7) 8 =
      (false, MeekSet.add [] MeekSet.empty 7) :=
  delete_semantics ⟨[(0, 1)], [(1, 5)], [⟨5, 0, 1, true⟩], 2⟩ 0 1
    (by decide) (by decide) ⟨[(0, 1)], [(1, 5)], [⟨5, 0, 1, true⟩], 2⟩ 3
    (by decide) [] (MeekSet.add [] MeekSet.empty 7) 7 0 (by decide)
    (by decide) (by decide) (by decide) (by decide)
    (MeekSet.add [] MeekSet.empty 7) 8 (by decide) (by decide)

end Meek
